import Mathlib

/-!
Quote service: a shallow embedding of the route handlers of `src/src/app.js`.

The store `quotes` is a JavaScript array of records `{id, text, author, category}`;
it is modelled as a `List Quote` that every handler receives and that `postQuote`
returns extended. Each Express handler becomes a total function from the store and
the request parameters to a `Response` (status code and JSON body).

Modelling conventions:
* record fields carry the types of the `Quote` JSON shape (an integer id, three strings);
  a request field that may be missing is an `Option String` (`none` is `undefined`);
* a JavaScript number is a `JsNumber`: `NaN`, an infinity, or a finite integer; `parseInt`
  rounds the integer it reads to the nearest double and overflows to `Infinity`;
* sums and products of finite integers are taken exactly: a double rounds them only from
  `2 ^ 53` on, far beyond the length of an array, where `slice` clamps every index alike;
* the draw of `Math.random()` is a double, given by its numerator over `2 ^ 1074`, and its
  product with the length is rounded as a double product is;
* `String.prototype.toLowerCase` depends on the Unicode case tables, which are no part of
  the repository: the handler that calls it takes it as a parameter.
-/

namespace QuoteApp

/-- One record of the store, `{id, text, author, category}`. -/
structure Quote where
  id : Int
  text : String
  author : String
  category : String
deriving DecidableEq, Repr

/-- What a handler sends: the status code and the JSON body. -/
structure Response (β : Type) where
  status : Nat
  body : β
deriving DecidableEq, Repr

/-! ## JavaScript numbers -/

/-- A JavaScript number as the handlers meet it: `NaN`, `Infinity` or `-Infinity`, or a
finite integer; `-0` is identified with `0`, which no handler tells apart. In a JSON body
`NaN` and the infinities are written `null`. -/
inductive JsNumber where
  | nan
  | infinity (negative : Bool)
  | finite (value : Int)
deriving DecidableEq, Repr

/-- The number of bits of `N` beyond 53: the least `s` with `N / 2 ^ s < 2 ^ 53`, found by
halving at most `fuel` times. -/
def excessBits : Nat → Nat → Nat
  | 0, _ => 0
  | fuel + 1, N => if N < 2 ^ 53 then 0 else excessBits fuel (N / 2) + 1

/-- Rounding to a significand of 53 bits, to nearest and ties to even, as a double keeps
it: a natural number below `2 ^ 53` is kept, a larger one becomes the nearest multiple of
`2 ^ s`, `s` being the number of its bits beyond 53. -/
def roundSignificand (N : Nat) : Nat :=
  if N < 2 ^ 53 then N
  else
    let s := excessBits N N
    let q := N / 2 ^ s
    let rem := N % 2 ^ s
    let half := 2 ^ (s - 1)
    if rem < half then q * 2 ^ s
    else if half < rem then (q + 1) * 2 ^ s
    else if q % 2 = 0 then q * 2 ^ s
    else (q + 1) * 2 ^ s

/-- The magnitude `2 ^ 1024` from which a rounded value is an infinity. -/
def overflowThreshold : Nat :=
  179769313486231590772930519078902473361797697894230657273430081157732675805500963132708477322407536021120113879871393357658789768814416622492847430639474124377767893424865485276302219601246094119453082952085005768838150682342462881473913110540827237163350510684586298239947245938479716304835356329624224137216

/-- The Number value of a mathematical integer (ECMAScript `𝔽`): the nearest double, ties
to even, and an infinity when the rounded magnitude reaches `2 ^ 1024`. -/
def JsNumber.ofInt (i : Int) : JsNumber :=
  let m := roundSignificand i.natAbs
  if overflowThreshold ≤ m then .infinity (decide (i < 0))
  else .finite (if i < 0 then -(m : Int) else (m : Int))

/-- The difference `a - b` of two numbers, exact on finite integers. -/
def JsNumber.sub : JsNumber → JsNumber → JsNumber
  | .nan, _ => .nan
  | _, .nan => .nan
  | .finite a, .finite b => .finite (a - b)
  | .infinity s, .finite _ => .infinity s
  | .finite _, .infinity t => .infinity (!t)
  | .infinity s, .infinity t => if s = t then .nan else .infinity s

/-- The product `a * b` of two numbers, exact on finite integers. -/
def JsNumber.mul : JsNumber → JsNumber → JsNumber
  | .nan, _ => .nan
  | _, .nan => .nan
  | .finite a, .finite b => .finite (a * b)
  | .infinity s, .finite b => if b = 0 then .nan else .infinity (xor s (decide (b < 0)))
  | .finite a, .infinity t => if a = 0 then .nan else .infinity (xor (decide (a < 0)) t)
  | .infinity s, .infinity t => .infinity (xor s t)

/-- The expression `Math.ceil(total / limit)` for an array length `total`: a division by an
infinity gives zero, a division by zero an infinity, or `NaN` for `0 / 0`. The quotient by
a finite limit is taken exactly: for an array length the rounding of a double quotient
never reaches the next integer. -/
def pageCount (total : Nat) : JsNumber → JsNumber
  | .nan => .nan
  | .infinity _ => .finite 0
  | .finite l =>
    if l = 0 then (if total = 0 then .nan else .infinity false)
    else .finite (Int.ceil ((total : ℚ) / (l : ℚ)))

/-- The expression `n || d` on numbers: `NaN` and `0` are falsy. -/
def numberOr (n : JsNumber) (d : JsNumber) : JsNumber :=
  match n with
  | .nan => d
  | .finite v => if v = 0 then d else .finite v
  | .infinity s => .infinity s

/-! ## Other JavaScript built-ins used by the handlers -/

/-- The characters `parseInt` skips at the start of its input (ECMAScript `StrWhiteSpaceChar`:
white space and line terminators), by code point. -/
def isStrWhiteSpace (c : Char) : Bool :=
  let n := c.toNat
  n = 9 || n = 10 || n = 11 || n = 12 || n = 13 || n = 32 || n = 160 || n = 5760 ||
  (8192 ≤ n && n ≤ 8202) || n = 8232 || n = 8233 || n = 8239 || n = 8287 || n = 12288 ||
  n = 65279

/-- Value of a character as a digit (`0-9`, `a-z`, `A-Z`), if it is one. -/
def digitValue (c : Char) : Option Nat :=
  let n := c.toNat
  if 48 ≤ n ∧ n ≤ 57 then some (n - 48)
  else if 97 ≤ n ∧ n ≤ 122 then some (n - 87)
  else if 65 ≤ n ∧ n ≤ 90 then some (n - 55)
  else none

/-- The longest run of radix-`R` digits at the start of the input, as digit values. -/
def takeDigits (R : Nat) : List Char → List Nat
  | [] => []
  | c :: cs =>
    match digitValue c with
    | some d => if d < R then d :: takeDigits R cs else []
    | none => []

/-- The mathematical integer denoted by a digit run in radix `R`. -/
def digitsValue (R : Nat) (ds : List Nat) : Nat :=
  ds.foldl (fun acc d => acc * R + d) 0

/-- The sign step of `parseInt`: a leading `-` gives sign -1, and a leading `-` or `+` is
removed. -/
def readSign : List Char → Int × List Char
  | '-' :: rest => (-1, rest)
  | '+' :: rest => (1, rest)
  | S => (1, S)

/-- The radix step of `parseInt` called without a radix: radix 16 after a leading `0x` or
`0X`, which is removed, and radix 10 otherwise. -/
def readRadix : List Char → Nat × List Char
  | '0' :: 'x' :: rest => (16, rest)
  | '0' :: 'X' :: rest => (16, rest)
  | S => (10, S)

/-- ECMAScript `parseInt(string)` with no radix argument: skip leading white space, read an
optional sign, switch to radix 16 after `0x` or `0X`, read the longest digit run; `NaN`
when the run is empty, and otherwise the Number value of the signed integer read. The
integer of a decimal run is taken exactly before it is rounded, as ECMAScript requires up
to 20 significant digits and allows beyond. -/
def parseInt (s : String) : JsNumber :=
  let S := s.toList.dropWhile isStrWhiteSpace
  let signed := readSign S
  let radixed := readRadix signed.2
  let Z := takeDigits radixed.1 radixed.2
  if Z = [] then .nan else JsNumber.ofInt (signed.1 * (digitsValue radixed.1 Z : Int))

/-- Whether a character is one of the decimal digits `0` to `9`. -/
def IsDecimal (c : Char) : Prop := 48 ≤ c.toNat ∧ c.toNat ≤ 57

instance (c : Char) : Decidable (IsDecimal c) := by
  unfold IsDecimal; infer_instance

/-- The call `parseInt(v)` on a query or path value that may be missing: `undefined` is
first converted to the string `"undefined"`. -/
def parseIntParam : Option String → JsNumber
  | none => parseInt "undefined"
  | some s => parseInt s

/-- Whether an optional string is falsy (`!v`): `undefined` and the empty string are. -/
def falsy : Option String → Bool
  | none => true
  | some s => s = ""

/-- The expression `v || d` on an optional string. -/
def stringOr (v : Option String) (d : String) : String :=
  match v with
  | none => d
  | some s => if s = "" then d else s

/-- The clamp `Array.prototype.slice` applies to an index: `NaN` counts as 0, a negative
index counts from the end, and the result is kept within `0..len`. -/
def relativeIndex (len : Nat) : JsNumber → Nat
  | .nan => 0
  | .infinity negative => if negative then 0 else len
  | .finite i => if i < 0 then (max ((len : Int) + i) 0).toNat else min i.toNat len

/-- The call `xs.slice(startIndex, endIndex)`. -/
def slice {α : Type} (xs : List α) (startIndex endIndex : JsNumber) : List α :=
  let k := relativeIndex xs.length startIndex
  let final := relativeIndex xs.length endIndex
  (xs.drop k).take (final - k)

/-- One `Set.prototype.add`: a value already present keeps its place. -/
def setAdd (seen : List String) (v : String) : List String :=
  if v ∈ seen then seen else seen ++ [v]

/-- The expression `[...new Set(vs)]`: the values of `vs` in insertion order. -/
def newSet (vs : List String) : List String :=
  vs.foldl setAdd []

/-! ## Handlers -/

/-- Body of `GET /api/quotes`. -/
structure QuotesPage where
  page : JsNumber
  limit : JsNumber
  total : Nat
  totalPages : JsNumber
  quotes : List Quote
deriving DecidableEq, Repr

/-- Handler `app.get('/api/quotes')` (lines 53-69). -/
def getQuotes (quotes : List Quote) (pageQuery limitQuery : Option String) :
    Response QuotesPage :=
  let page := numberOr (parseIntParam pageQuery) (.finite 1)
  let limit := numberOr (parseIntParam limitQuery) (.finite 11)
  let startIndex := (page.sub (.finite 1)).mul limit
  let endIndex := page.mul limit
  let paginatedQuotes := slice quotes startIndex endIndex
  { status := 200
    body :=
      { page := page
        limit := limit
        total := quotes.length
        totalPages := pageCount quotes.length limit
        quotes := paginatedQuotes } }

/-- The index `Math.floor(Math.random() * quotes.length)`. The draw is the double
`random / 2 ^ 1074` (every finite double is such a fraction); the product of the draw and
the length is rounded to a double, and its integer part is taken. -/
def randomIndex (quotes : List Quote) (random : Nat) : Nat :=
  roundSignificand (random * quotes.length) / 2 ^ 1074

/-- Handler `app.get('/api/quotes/random')` (lines 75-79), given the numerator `random` of
the value `Math.random()` returns; the body is `none` when the element read is
`undefined`. -/
def getRandomQuote (quotes : List Quote) (random : Nat) : Response (Option Quote) :=
  let randomQuote := quotes[randomIndex quotes random]?
  { status := 200, body := randomQuote }

/-- Body of `GET /api/quotes/:id`. -/
inductive ByIdBody where
  | quote (q : Quote)
  | notFound (error : String) (id : JsNumber)
deriving DecidableEq, Repr

/-- Handler `app.get('/api/quotes/:id')` (lines 85-97). -/
def getQuoteById (quotes : List Quote) (idParam : String) : Response ByIdBody :=
  let id := parseInt idParam
  match quotes.find? (fun q => decide (JsNumber.finite q.id = id)) with
  | some quote => { status := 200, body := .quote quote }
  | none => { status := 404, body := .notFound "Quote not found" id }

/-- Body of `GET /api/quotes/category/:category`. -/
inductive ByCategoryBody where
  | found (category : String) (count : Nat) (quotes : List Quote)
  | notFound (error : String) (category : String)
deriving DecidableEq, Repr

/-- Handler `app.get('/api/quotes/category/:category')` (lines 103-121). The built-in
`String.prototype.toLowerCase` is the parameter `toLowerCase`. -/
def getQuotesByCategory (toLowerCase : String → String) (quotes : List Quote)
    (categoryParam : String) : Response ByCategoryBody :=
  let category := toLowerCase categoryParam
  let filteredQuotes := quotes.filter (fun q => decide (toLowerCase q.category = category))
  if filteredQuotes.length > 0 then
    { status := 200, body := .found category filteredQuotes.length filteredQuotes }
  else
    { status := 404, body := .notFound "No quotes found for this category" category }

/-- What `toLowerCase` does to a string of ASCII characters: the letters `A` to `Z` become
`a` to `z`. It stands for the built-in in the concrete checks. -/
def asciiToLowerCase (s : String) : String :=
  String.mk (s.toList.map Char.toLower)

/-- Body of `GET /api/categories`. -/
structure CategoriesBody where
  count : Nat
  categories : List String
deriving DecidableEq, Repr

/-- Handler `app.get('/api/categories')` (lines 127-133). -/
def getCategories (quotes : List Quote) : Response CategoriesBody :=
  let categories := newSet (quotes.map (fun q => q.category))
  { status := 200, body := { count := categories.length, categories := categories } }

/-- The fields the handler reads from the body of `POST /api/quotes`. -/
structure NewQuoteRequest where
  text : Option String
  author : Option String
  category : Option String
deriving DecidableEq, Repr

/-- Body of the answer to `POST /api/quotes`. -/
inductive AddBody where
  | created (q : Quote)
  | invalid (error : String)
deriving DecidableEq, Repr

/-- Handler `app.post('/api/quotes')` (lines 139-157): the response and the store
afterwards. Past the guard both `text` and `author` are present, so the fallback of
`Option.getD` is never used. -/
def postQuote (quotes : List Quote) (req : NewQuoteRequest) :
    Response AddBody × List Quote :=
  if falsy req.text || falsy req.author then
    ({ status := 400, body := .invalid "Text and author are required" }, quotes)
  else
    let newQuote : Quote :=
      { id := (quotes.length : Int) + 1
        text := req.text.getD ""
        author := req.author.getD ""
        category := stringOr req.category "general" }
    ({ status := 201, body := .created newQuote }, quotes ++ [newQuote])

/-- The store after a sequence of `POST /api/quotes` requests, in order. -/
def postAll (quotes : List Quote) (reqs : List NewQuoteRequest) : List Quote :=
  reqs.foldl (fun store req => (postQuote store req).2) quotes

/-- The quotes List returns for the request `?page=<page>&limit=<limit>`, both written in
decimal. -/
def pageQuotes (quotes : List Quote) (limit page : Nat) : List Quote :=
  (getQuotes quotes (some (toString page)) (some (toString limit))).body.quotes

/-- The page count List reports for the request `?limit=<limit>`, written in decimal. -/
def reportedTotalPages (quotes : List Quote) (limit : Nat) : JsNumber :=
  (getQuotes quotes none (some (toString limit))).body.totalPages

/-! ## Stores used in the concrete checks, and the id invariant -/

/-- The store used in the concrete checks below: three loaded records with ids 1, 2, 3. -/
def sampleStore : List Quote :=
  [ ⟨1, "Stay hungry", "Jobs", "Motivation"⟩,
    ⟨2, "Know thyself", "Socrates", "wisdom"⟩,
    ⟨3, "Just do it", "Nike", "motivation"⟩ ]

/-- A loaded store whose single record has an id above the store size. -/
def gapStore : List Quote :=
  [ ⟨2, "Know thyself", "Socrates", "wisdom"⟩ ]

/-- The invariant under which `quotes.length + 1` is a fresh id: the ids are pairwise
distinct and none exceeds the size of the store. -/
def IdsWithinSize (quotes : List Quote) : Prop :=
  (quotes.map Quote.id).Nodup ∧ ∀ q ∈ quotes, q.id ≤ (quotes.length : Int)

/-- A store whose record carries the id `2 ^ 53`. -/
def roundedIdStore : List Quote :=
  [ ⟨9007199254740992, "Know thyself", "Socrates", "wisdom"⟩ ]

/-- The decimal numeral of `10 ^ 309`: the digit 1 followed by 309 zeros. -/
def hugeNumeral : String :=
  String.mk ('1' :: List.replicate 309 '0')

end QuoteApp

namespace QuoteApp

/-! ## Rounding -/

theorem excessBits_spec : ∀ fuel N, N ≤ fuel →
    N / 2 ^ excessBits fuel N < 2 ^ 53 ∧
    (2 ^ 53 ≤ N → 2 ^ 52 ≤ N / 2 ^ excessBits fuel N ∧ 1 ≤ excessBits fuel N) := by
  intro fuel
  induction fuel with
  | zero =>
    intro N hN
    have h0 : N = 0 := by omega
    subst h0
    simp [excessBits]
  | succ fuel ih =>
    intro N hN
    by_cases hsmall : N < 2 ^ 53
    · simp only [excessBits, if_pos hsmall, pow_zero, Nat.div_one]
      exact ⟨hsmall, fun h => absurd hsmall (by omega)⟩
    · simp only [excessBits, if_neg hsmall]
      have hhalf : N / 2 ≤ fuel := by omega
      obtain ⟨h1, h2⟩ := ih (N / 2) hhalf
      have hdiv : N / 2 ^ (excessBits fuel (N / 2) + 1) =
          N / 2 / 2 ^ excessBits fuel (N / 2) := by
        rw [pow_succ, Nat.mul_comm, Nat.div_div_eq_div_mul]
      rw [hdiv]
      refine ⟨h1, fun _ => ⟨?_, Nat.succ_pos _⟩⟩
      by_cases hbig : 2 ^ 53 ≤ N / 2
      · exact (h2 hbig).1
      · have hz : excessBits fuel (N / 2) = 0 := by
          cases fuel with
          | zero => rfl
          | succ f => simp only [excessBits, if_pos (Nat.lt_of_not_le hbig)]
        rw [hz, pow_zero, Nat.div_one]
        omega

theorem roundSignificand_of_lt (N : Nat) (h : N < 2 ^ 53) : roundSignificand N = N := by
  simp only [roundSignificand, if_pos h]

/-- What rounding does to a number of more than 53 bits: the result is a multiple `m * 2 ^ s`
with `2 ^ 52 ≤ m ≤ 2 ^ 53`, at most half a unit `2 ^ s` away from above. -/
theorem roundSignificand_of_ge (N : Nat) (h : 2 ^ 53 ≤ N) :
    ∃ s m, 1 ≤ s ∧ roundSignificand N = m * 2 ^ s ∧ 2 ^ 52 ≤ m ∧ m ≤ 2 ^ 53 ∧
      2 ^ 52 * 2 ^ s ≤ N ∧ N < 2 ^ 53 * 2 ^ s ∧
      roundSignificand N ≤ N + 2 ^ (s - 1) ∧ (roundSignificand N = N → m < 2 ^ 53) := by
  obtain ⟨hlt, hge⟩ := excessBits_spec N N (Nat.le_refl N)
  obtain ⟨hq, hs⟩ := hge h
  have hpos : 0 < 2 ^ excessBits N N := Nat.pow_pos (by decide)
  have hsplit : 2 ^ excessBits N N * (N / 2 ^ excessBits N N) + N % 2 ^ excessBits N N = N :=
    Nat.div_add_mod N _
  have hrem : N % 2 ^ excessBits N N < 2 ^ excessBits N N := Nat.mod_lt _ hpos
  have hhalf : 2 ^ excessBits N N = 2 * 2 ^ (excessBits N N - 1) := by
    rw [← pow_succ', Nat.sub_add_cancel hs]
  have hlow : 2 ^ 52 * 2 ^ excessBits N N ≤ N := by
    calc 2 ^ 52 * 2 ^ excessBits N N ≤ N / 2 ^ excessBits N N * 2 ^ excessBits N N :=
          Nat.mul_le_mul_right _ hq
      _ ≤ N := Nat.div_mul_le_self N _
  have hhigh : N < 2 ^ 53 * 2 ^ excessBits N N := by
    have := (Nat.div_lt_iff_lt_mul hpos).mp hlt
    exact this
  have hnot : ¬ N < 2 ^ 53 := by omega
  have hmul : N / 2 ^ excessBits N N * 2 ^ excessBits N N + N % 2 ^ excessBits N N = N := by
    rw [Nat.mul_comm]; exact hsplit
  have hup : (N / 2 ^ excessBits N N + 1) * 2 ^ excessBits N N =
      N / 2 ^ excessBits N N * 2 ^ excessBits N N + 2 ^ excessBits N N := by ring
  have hdown_case : ∀ hval : roundSignificand N = N / 2 ^ excessBits N N * 2 ^ excessBits N N,
      ∃ s m, 1 ≤ s ∧ roundSignificand N = m * 2 ^ s ∧ 2 ^ 52 ≤ m ∧ m ≤ 2 ^ 53 ∧
        2 ^ 52 * 2 ^ s ≤ N ∧ N < 2 ^ 53 * 2 ^ s ∧
        roundSignificand N ≤ N + 2 ^ (s - 1) ∧ (roundSignificand N = N → m < 2 ^ 53) := by
    intro hval
    refine ⟨excessBits N N, N / 2 ^ excessBits N N, hs, hval, hq, Nat.le_of_lt hlt, hlow,
      hhigh, ?_, fun _ => hlt⟩
    rw [hval]; omega
  have hup_case : ∀ hval : roundSignificand N =
        (N / 2 ^ excessBits N N + 1) * 2 ^ excessBits N N,
      2 ^ (excessBits N N - 1) ≤ N % 2 ^ excessBits N N →
      ∃ s m, 1 ≤ s ∧ roundSignificand N = m * 2 ^ s ∧ 2 ^ 52 ≤ m ∧ m ≤ 2 ^ 53 ∧
        2 ^ 52 * 2 ^ s ≤ N ∧ N < 2 ^ 53 * 2 ^ s ∧
        roundSignificand N ≤ N + 2 ^ (s - 1) ∧ (roundSignificand N = N → m < 2 ^ 53) := by
    intro hval hge2
    refine ⟨excessBits N N, N / 2 ^ excessBits N N + 1, hs, hval, by omega, by omega, hlow,
      hhigh, ?_, ?_⟩
    · rw [hval, hup]; omega
    · intro heq
      rw [hval, hup] at heq
      omega
  unfold roundSignificand at hdown_case hup_case ⊢
  simp only [if_neg hnot] at hdown_case hup_case ⊢
  split_ifs at hdown_case hup_case ⊢ with h1 h2 h3
  · exact hdown_case rfl
  · exact hup_case rfl (Nat.le_of_lt h2)
  · exact hdown_case rfl
  · exact hup_case rfl (by omega)

theorem pow_1074_eq : (2 : Nat) ^ 1074 = 2 ^ 53 * 2 ^ 1021 := by
  rw [← pow_add]

/-- A double below 1, counted in units of `2 ^ -1074`, is at most `1 - 2 ^ -53`. -/
theorem double_below_one (k : Nat) (hlt : k < 2 ^ 1074) (hdouble : roundSignificand k = k) :
    k + 2 ^ 1021 ≤ 2 ^ 1074 := by
  rw [pow_1074_eq] at hlt ⊢
  have hP : 2 ≤ 2 ^ 1021 := Nat.le_self_pow (by decide) 2
  by_cases hsmall : k < 2 ^ 53
  · generalize (2 : Nat) ^ 1021 = P at hP hlt ⊢
    nlinarith
  · obtain ⟨s, m, _, hval, _, _, hlow, _, _, hm⟩ :=
      roundSignificand_of_ge k (Nat.le_of_not_lt hsmall)
    have hm2 := hm hdouble
    rw [hdouble] at hval
    have hs : s < 1022 := by
      by_contra hge
      have h1 : 2 ^ 1022 ≤ 2 ^ s := Nat.pow_le_pow_right (by decide) (by omega)
      have h2 : (2 : Nat) ^ 53 * 2 ^ 1021 = 2 ^ 52 * 2 ^ 1022 := by
        rw [← pow_add, ← pow_add]
      have h3 : 2 ^ 52 * 2 ^ 1022 ≤ 2 ^ 52 * 2 ^ s := Nat.mul_le_mul_left _ h1
      omega
    have hle : 2 ^ s ≤ 2 ^ 1021 := Nat.pow_le_pow_right (by decide) (by omega)
    generalize (2 : Nat) ^ 1021 = P at hP hlt hle ⊢
    generalize (2 : Nat) ^ s = S at hval hlow hle
    subst hval
    have h4 : m * S ≤ (2 ^ 53 - 1) * S := Nat.mul_le_mul_right _ (by omega)
    have h5 : (2 ^ 53 - 1) * S ≤ (2 ^ 53 - 1) * P := Nat.mul_le_mul_left _ hle
    have h6 : (2 ^ 53 - 1) * P + P = 2 ^ 53 * P := by
      have : (2 : Nat) ^ 53 = (2 ^ 53 - 1) + 1 := by norm_num
      nlinarith
    omega

/-- The rounded product of a double below 1 and a positive integer `n` stays below `n`. -/
theorem roundSignificand_mul_lt (k n : Nat) (hk : k + 2 ^ 1021 ≤ 2 ^ 1074) (hn : 0 < n) :
    roundSignificand (k * n) < n * 2 ^ 1074 := by
  rw [pow_1074_eq] at hk ⊢
  have hP : 0 < 2 ^ 1021 := Nat.two_pow_pos 1021
  have hprod : k * n + 2 ^ 1021 * n ≤ 2 ^ 53 * 2 ^ 1021 * n := by
    have := Nat.mul_le_mul_right n hk
    rw [Nat.add_mul] at this
    exact this
  by_cases hsmall : k * n < 2 ^ 53
  · rw [roundSignificand_of_lt _ hsmall]
    generalize (2 : Nat) ^ 1021 = P at hP hk hprod ⊢
    nlinarith
  · obtain ⟨s, m, hs, _, _, _, hlow, _, hup, _⟩ :=
      roundSignificand_of_ge (k * n) (Nat.le_of_not_lt hsmall)
    have hhalf : 2 ^ s = 2 * 2 ^ (s - 1) := by
      rw [← pow_succ', Nat.sub_add_cancel hs]
    rw [hhalf] at hlow
    generalize (2 : Nat) ^ 1021 = P at hP hk hprod ⊢
    generalize (2 : Nat) ^ (s - 1) = H at hlow hup
    have h53 : (2 : Nat) ^ 53 = 2 * 2 ^ 52 := by norm_num
    nlinarith

theorem overflowThreshold_eq : overflowThreshold = 2 ^ 1024 := by
  decide!

theorem ofInt_natCast (n : Nat) :
    JsNumber.ofInt (n : Int) =
      if overflowThreshold ≤ roundSignificand n then JsNumber.infinity false
      else JsNumber.finite (roundSignificand n : Int) := by
  have hneg : ¬ ((n : Int) < 0) := by omega
  simp only [JsNumber.ofInt, Int.natAbs_ofNat, hneg, decide_False, if_false]

theorem ofInt_natCast_of_lt (n : Nat) (h : n < 2 ^ 53) :
    JsNumber.ofInt (n : Int) = JsNumber.finite (n : Int) := by
  have hthr : ¬ overflowThreshold ≤ n := by
    rw [overflowThreshold_eq]
    have hpow : (2 : Nat) ^ 53 ≤ 2 ^ 1024 := Nat.pow_le_pow_right (by decide) (by decide)
    generalize (2 : Nat) ^ 1024 = X at hpow ⊢
    omega
  rw [ofInt_natCast, roundSignificand_of_lt n h, if_neg hthr]

theorem roundSignificand_ge (N : Nat) (h : 2 ^ 53 ≤ N) : 2 ^ 53 ≤ roundSignificand N := by
  obtain ⟨s, m, hs, hval, hm, _, _, _, _, _⟩ := roundSignificand_of_ge N h
  rw [hval]
  have h2 : 2 ^ 1 ≤ 2 ^ s := Nat.pow_le_pow_right (by decide) hs
  calc 2 ^ 53 = 2 ^ 52 * 2 ^ 1 := by norm_num
    _ ≤ m * 2 ^ s := Nat.mul_le_mul hm h2

theorem roundSignificand_pos (N : Nat) (h : 0 < N) : 0 < roundSignificand N := by
  by_cases hsmall : N < 2 ^ 53
  · rw [roundSignificand_of_lt N hsmall]; exact h
  · have := roundSignificand_ge N (Nat.le_of_not_lt hsmall)
    omega

/-! ## Reading numbers -/

theorem digitChar_toNat (d : Nat) (h : d < 10) : (Nat.digitChar d).toNat = 48 + d := by
  interval_cases d <;> rfl

theorem toDigitsCore_decimal : ∀ fuel n ds, n < fuel →
    ∃ ys, Nat.toDigitsCore 10 fuel n ds = ys ++ ds ∧ ys ≠ [] ∧ (∀ c ∈ ys, IsDecimal c) ∧
      digitsValue 10 (ys.map (fun c => c.toNat - 48)) = n := by
  intro fuel
  induction fuel with
  | zero => intro n ds h; omega
  | succ fuel ih =>
    intro n ds h
    have hd : (Nat.digitChar (n % 10)).toNat = 48 + n % 10 :=
      digitChar_toNat _ (Nat.mod_lt _ (by decide))
    have hdec : IsDecimal (Nat.digitChar (n % 10)) := by
      have := Nat.mod_lt n (show 10 > 0 by decide)
      constructor <;> omega
    rw [Nat.toDigitsCore]
    by_cases h0 : n / 10 = 0
    · simp only [h0, if_true]
      refine ⟨[Nat.digitChar (n % 10)], rfl, by simp, ?_, ?_⟩
      · intro c hc
        rw [List.mem_singleton.mp hc]; exact hdec
      · simp only [List.map_cons, List.map_nil, digitsValue, List.foldl_cons, List.foldl_nil, hd]
        omega
    · simp only [h0, if_false]
      obtain ⟨ys, hys, hne, hall, hval⟩ := ih (n / 10) (Nat.digitChar (n % 10) :: ds) (by omega)
      refine ⟨ys ++ [Nat.digitChar (n % 10)], by rw [hys]; simp, by simp, ?_, ?_⟩
      · intro c hc
        rcases List.mem_append.mp hc with hc | hc
        · exact hall c hc
        · rw [List.mem_singleton.mp hc]; exact hdec
      · unfold digitsValue at hval ⊢
        rw [List.map_append, List.foldl_append, hval]
        simp only [List.map_cons, List.map_nil, List.foldl_cons, List.foldl_nil, hd]
        omega

theorem digitValue_decimal (c : Char) (h : IsDecimal c) : digitValue c = some (c.toNat - 48) := by
  unfold digitValue
  have h2 : 48 ≤ c.toNat ∧ c.toNat ≤ 57 := h
  simp only
  rw [if_pos h2]

theorem takeDigits_decimal (cs : List Char) (h : ∀ c ∈ cs, IsDecimal c) :
    takeDigits 10 cs = cs.map (fun c => c.toNat - 48) := by
  induction cs with
  | nil => rfl
  | cons c cs ih =>
    have hc := h c (List.mem_cons_self _ _)
    have hlt : c.toNat - 48 < 10 := by have := hc.1; have := hc.2; omega
    simp only [takeDigits, digitValue_decimal c hc, if_pos hlt, List.map_cons]
    rw [ih (fun d hd => h d (List.mem_cons_of_mem _ hd))]

theorem isStrWhiteSpace_decimal (c : Char) (h : IsDecimal c) : isStrWhiteSpace c = false := by
  obtain ⟨h1, h2⟩ := h
  unfold isStrWhiteSpace
  simp only [Bool.or_eq_false_iff, Bool.and_eq_false_iff, decide_eq_false_iff_not]
  omega

theorem readSign_decimal (c : Char) (cs : List Char) (h : IsDecimal c) :
    readSign (c :: cs) = (1, c :: cs) := by
  unfold readSign
  split
  · next heq =>
    have : c = '-' := (List.cons.inj heq).1
    rw [this] at h; exact absurd h (by decide)
  · next heq =>
    have : c = '+' := (List.cons.inj heq).1
    rw [this] at h; exact absurd h (by decide)
  · rfl

theorem readRadix_decimal (cs : List Char) (h : ∀ c ∈ cs, IsDecimal c) :
    readRadix cs = (10, cs) := by
  unfold readRadix
  split
  · next heq =>
    have := h 'x' (by simp)
    exact absurd this (by decide)
  · next heq =>
    have := h 'X' (by simp)
    exact absurd this (by decide)
  · rfl

theorem parseInt_decimal (cs : List Char) (hne : cs ≠ []) (h : ∀ c ∈ cs, IsDecimal c) :
    parseInt (String.mk cs) =
      JsNumber.ofInt (digitsValue 10 (cs.map (fun c => c.toNat - 48)) : Int) := by
  obtain ⟨c, rest, rfl⟩ := List.exists_cons_of_ne_nil hne
  have hc := h c (List.mem_cons_self _ _)
  have hdrop : List.dropWhile isStrWhiteSpace (c :: rest) = c :: rest := by
    rw [List.dropWhile_cons, isStrWhiteSpace_decimal c hc]; rfl
  simp only [parseInt, String.toList, hdrop, readSign_decimal c rest hc,
    readRadix_decimal (c :: rest) h, takeDigits_decimal (c :: rest) h]
  simp

theorem parseInt_toString (n : Nat) : parseInt (toString n) = JsNumber.ofInt (n : Int) := by
  obtain ⟨ys, hys, hne, hall, hval⟩ := toDigitsCore_decimal (n + 1) n [] (Nat.lt_succ_self n)
  have hrepr : toString n = String.mk ys := by
    show (Nat.toDigits 10 n).asString = _
    rw [Nat.toDigits, hys, List.append_nil]
    rfl
  rw [hrepr, parseInt_decimal ys hne hall, hval]

/-- A decimal numeral below `2 ^ 53` is read exactly. -/
theorem parseInt_repr (n : Nat) (h : n < 2 ^ 53) :
    parseInt (toString n) = JsNumber.finite (n : Int) := by
  rw [parseInt_toString, ofInt_natCast_of_lt n h]

theorem takeDigits_of_not_decimal (cs : List Char) (h : ∀ c ∈ cs, ¬ IsDecimal c) :
    takeDigits 10 cs = [] := by
  cases cs with
  | nil => rfl
  | cons c cs =>
    have hc : ¬ (48 ≤ c.toNat ∧ c.toNat ≤ 57) := h c (List.mem_cons_self _ _)
    simp only [takeDigits, digitValue, if_neg hc]
    split_ifs with h1 h2
    · have : ¬ (c.toNat - 87 < 10) := by omega
      simp [this]
    · have : ¬ (c.toNat - 55 < 10) := by omega
      simp [this]
    · rfl

theorem readSign_subset (cs : List Char) : ∀ c ∈ (readSign cs).2, c ∈ cs := by
  unfold readSign
  split
  · intro c hc; exact List.mem_cons_of_mem _ hc
  · intro c hc; exact List.mem_cons_of_mem _ hc
  · intro c hc; exact hc

theorem readRadix_of_not_decimal (cs : List Char) (h : ∀ c ∈ cs, ¬ IsDecimal c) :
    readRadix cs = (10, cs) := by
  unfold readRadix
  split
  · exact absurd (show IsDecimal '0' by decide) (h '0' (by simp))
  · exact absurd (show IsDecimal '0' by decide) (h '0' (by simp))
  · rfl

theorem parseInt_of_no_digit (s : String) (h : ∀ c ∈ s.toList, ¬ IsDecimal c) :
    parseInt s = JsNumber.nan := by
  have h1 : ∀ c ∈ s.toList.dropWhile isStrWhiteSpace, ¬ IsDecimal c :=
    fun c hc => h c ((List.dropWhile_sublist _).subset hc)
  have h2 : ∀ c ∈ (readSign (s.toList.dropWhile isStrWhiteSpace)).2, ¬ IsDecimal c :=
    fun c hc => h1 c (readSign_subset _ c hc)
  simp only [parseInt, readRadix_of_not_decimal _ h2, takeDigits_of_not_decimal _ h2]
  rfl

theorem parseInt_neg_decimal (cs : List Char) (hne : cs ≠ []) (h : ∀ c ∈ cs, IsDecimal c) :
    parseInt (String.mk ('-' :: cs)) =
      JsNumber.ofInt (-(digitsValue 10 (cs.map (fun c => c.toNat - 48)) : Int)) := by
  have hdrop : List.dropWhile isStrWhiteSpace ('-' :: cs) = '-' :: cs := by
    rw [List.dropWhile_cons]; rfl
  have hsign : readSign ('-' :: cs) = (-1, cs) := rfl
  simp only [parseInt, String.toList, hdrop, hsign, readRadix_decimal cs h,
    takeDigits_decimal cs h]
  simp [hne]

theorem ofInt_neg_natCast_of_lt (n : Nat) (h : n < 2 ^ 53) :
    JsNumber.ofInt (-(n : Int)) = JsNumber.finite (-(n : Int)) := by
  have hthr : ¬ overflowThreshold ≤ n := by
    rw [overflowThreshold_eq]
    have hpow : (2 : Nat) ^ 53 ≤ 2 ^ 1024 := Nat.pow_le_pow_right (by decide) (by decide)
    generalize (2 : Nat) ^ 1024 = X at hpow ⊢
    omega
  simp only [JsNumber.ofInt, Int.natAbs_neg, Int.natAbs_ofNat, roundSignificand_of_lt n h,
    if_neg hthr]
  by_cases h0 : -(n : Int) < 0
  · simp [h0]
  · have : n = 0 := by omega
    subst this
    simp

/-- The decimal numeral of an integer of magnitude below `2 ^ 53` is read exactly. -/
theorem parseInt_int_toString (i : Int) (h : i.natAbs < 2 ^ 53) :
    parseInt (toString i) = JsNumber.finite i := by
  cases i with
  | ofNat n => exact parseInt_repr n h
  | negSucc n =>
    obtain ⟨ys, hys, hne, hall, hval⟩ :=
      toDigitsCore_decimal (n + 1 + 1) (n + 1) [] (Nat.lt_succ_self _)
    have hrepr : toString (Int.negSucc n) = String.mk ('-' :: ys) := by
      show "-" ++ (Nat.toDigits 10 (n + 1)).asString = _
      rw [Nat.toDigits, hys, List.append_nil]
      rfl
    rw [hrepr, parseInt_neg_decimal ys hne hall, hval]
    have h2 : n + 1 < 2 ^ 53 := h
    rw [ofInt_neg_natCast_of_lt (n + 1) h2]
    rfl

theorem parseInt_toString_finite (n : Nat) (hfinite : roundSignificand n < 2 ^ 1024) :
    parseInt (toString n) = .finite (roundSignificand n : Int) := by
  rw [parseInt_toString, ofInt_natCast, overflowThreshold_eq, if_neg (Nat.not_le.mpr hfinite)]

/-- What `parseInt` makes of the decimal numeral of a positive integer: the integer itself
below `2 ^ 53`, and from there on a finite number of at least `2 ^ 53` or `Infinity`. -/
theorem parseInt_toString_cases (n : Nat) :
    (n < 2 ^ 53 ∧ parseInt (toString n) = .finite (n : Int)) ∨
    (2 ^ 53 ≤ n ∧ parseInt (toString n) = .infinity false) ∨
    (2 ^ 53 ≤ n ∧ ∃ m : Nat, 2 ^ 53 ≤ m ∧ parseInt (toString n) = .finite (m : Int)) := by
  by_cases hsmall : n < 2 ^ 53
  · exact Or.inl ⟨hsmall, parseInt_repr n hsmall⟩
  · have hbig : 2 ^ 53 ≤ n := Nat.le_of_not_lt hsmall
    rw [parseInt_toString, ofInt_natCast]
    by_cases hover : overflowThreshold ≤ roundSignificand n
    · rw [if_pos hover]; exact Or.inr (Or.inl ⟨hbig, rfl⟩)
    · rw [if_neg hover]
      exact Or.inr (Or.inr ⟨hbig, roundSignificand n, roundSignificand_ge n hbig, rfl⟩)

/-! ## Adding a quote -/

theorem falsy_eq_false_iff (v : Option String) :
    falsy v = false ↔ ∃ s, v = some s ∧ s ≠ "" := by
  cases v with
  | none => simp [falsy]
  | some s => simp [falsy]

theorem falsy_eq_true_iff (v : Option String) :
    falsy v = true ↔ v = none ∨ v = some "" := by
  cases v with
  | none => simp [falsy]
  | some s => simp [falsy]

/-- C1: on a store of size N, an Add request whose text and author are both present and
non-empty is answered 201 with the record `{id: N+1, text, author, category}`, the category
being the supplied one, or "general" when it is omitted or empty; the store afterwards is
the old store with exactly that record appended at the end. -/
theorem postQuote_success (quotes : List Quote) (req : NewQuoteRequest)
    (text author : String)
    (htext : req.text = some text) (hauthor : req.author = some author)
    (htext_ne : text ≠ "") (hauthor_ne : author ≠ "") :
    ∃ r : Quote,
      postQuote quotes req = ({ status := 201, body := .created r }, quotes ++ [r]) ∧
      r.id = (quotes.length : Int) + 1 ∧ r.text = text ∧ r.author = author ∧
      (req.category = none ∨ req.category = some "" → r.category = "general") ∧
      (∀ c, req.category = some c → c ≠ "" → r.category = c) := by
  refine ⟨⟨(quotes.length : Int) + 1, text, author, stringOr req.category "general"⟩,
    ?_, rfl, rfl, rfl, ?_, ?_⟩
  · simp [postQuote, falsy, htext, hauthor, htext_ne, hauthor_ne]
  · rintro (h | h) <;> simp [stringOr, h]
  · intro c hc hne
    simp [stringOr, hc, hne]

theorem postQuote_success_witness :
    ∃ r : Quote,
      postQuote sampleStore ⟨some "t", some "a", none⟩ =
        ({ status := 201, body := .created r }, sampleStore ++ [r]) ∧
      r.id = (sampleStore.length : Int) + 1 ∧ r.text = "t" ∧ r.author = "a" ∧
      ((none : Option String) = none ∨ (none : Option String) = some "" →
        r.category = "general") ∧
      (∀ c, (none : Option String) = some c → c ≠ "" → r.category = c) :=
  postQuote_success sampleStore ⟨some "t", some "a", none⟩ "t" "a" rfl rfl
    (by decide) (by decide)

/-- C2: Add answers 400 with body `{error: "Text and author are required"}` exactly when
text is absent or empty or author is absent or empty; in that case the store is left
unchanged, and in every other case the answer is 201. -/
theorem postQuote_invalid_iff (quotes : List Quote) (req : NewQuoteRequest) :
    ((postQuote quotes req).1 =
        { status := 400, body := .invalid "Text and author are required" } ↔
      (req.text = none ∨ req.text = some "" ∨ req.author = none ∨ req.author = some "")) ∧
    ((postQuote quotes req).1.status = 400 ↔
      (req.text = none ∨ req.text = some "" ∨ req.author = none ∨ req.author = some "")) ∧
    ((postQuote quotes req).1.status = 400 → (postQuote quotes req).2 = quotes) ∧
    ((postQuote quotes req).1.status ≠ 400 → (postQuote quotes req).1.status = 201) := by
  have hcond : (falsy req.text || falsy req.author) = true ↔
      (req.text = none ∨ req.text = some "" ∨ req.author = none ∨ req.author = some "") := by
    rw [Bool.or_eq_true, falsy_eq_true_iff, falsy_eq_true_iff]
    tauto
  by_cases h : (falsy req.text || falsy req.author) = true
  · have h2 := hcond.mp h
    simp [postQuote, h, h2]
  · have h2 : ¬ (req.text = none ∨ req.text = some "" ∨ req.author = none ∨
        req.author = some "") := fun hh => h (hcond.mpr hh)
    simp [postQuote, h, h2]

/-! ## Identifiers -/

theorem postQuote_store (quotes : List Quote) (req : NewQuoteRequest) :
    (postQuote quotes req).2 = quotes ∨
    ∃ r : Quote, r.id = (quotes.length : Int) + 1 ∧ (postQuote quotes req).2 = quotes ++ [r] := by
  unfold postQuote
  split
  · exact Or.inl rfl
  · exact Or.inr ⟨_, rfl, rfl⟩

theorem postQuote_idsWithinSize (quotes : List Quote) (req : NewQuoteRequest)
    (h : IdsWithinSize quotes) : IdsWithinSize (postQuote quotes req).2 := by
  rcases postQuote_store quotes req with heq | ⟨r, hid, heq⟩
  · rw [heq]; exact h
  · rw [heq]
    obtain ⟨hnodup, hbound⟩ := h
    refine ⟨?_, ?_⟩
    · rw [List.map_append, List.nodup_append]
      refine ⟨hnodup, by simp, ?_⟩
      intro a ha hb
      simp only [List.map_cons, List.map_nil, List.mem_singleton] at hb
      obtain ⟨q, hq, hqa⟩ := List.mem_map.mp ha
      have := hbound q hq
      omega
    · intro q hq
      rw [List.length_append, List.length_singleton]
      rcases List.mem_append.mp hq with hq | hq
      · have := hbound q hq
        push_cast
        omega
      · rw [List.mem_singleton.mp hq, hid]
        push_cast
        omega

theorem postAll_extends (reqs : List NewQuoteRequest) :
    ∀ quotes : List Quote, ∃ added, postAll quotes reqs = quotes ++ added := by
  induction reqs with
  | nil => intro quotes; exact ⟨[], by simp [postAll]⟩
  | cons req reqs ih =>
    intro quotes
    obtain ⟨added, hadded⟩ := ih (postQuote quotes req).2
    have hstep : postAll quotes (req :: reqs) = postAll (postQuote quotes req).2 reqs := rfl
    rw [hstep, hadded]
    rcases postQuote_store quotes req with heq | ⟨r, _, heq⟩
    · exact ⟨added, by rw [heq]⟩
    · exact ⟨r :: added, by rw [heq]; simp⟩

theorem postAll_idsWithinSize (reqs : List NewQuoteRequest) :
    ∀ quotes : List Quote, IdsWithinSize quotes → IdsWithinSize (postAll quotes reqs) := by
  induction reqs with
  | nil => intro quotes h; exact h
  | cons req reqs ih =>
    intro quotes h
    exact ih _ (postQuote_idsWithinSize quotes req h)

/-- C3, as stated, fails: the ids of `gapStore` are pairwise distinct, yet after one
accepted Add the store holds the id 2 twice. -/
theorem postAll_ids_not_unique :
    (gapStore.map Quote.id).Nodup ∧
    ¬ ((postAll gapStore [⟨some "t", some "a", none⟩]).map Quote.id).Nodup := by
  decide

/-- C3, amended: when the ids of the loaded store are pairwise distinct and none of them
exceeds the size of the store (as for ids 1..N), then after every finite sequence of Add
requests, accepted or rejected, the ids are still pairwise distinct and none exceeds the
size; the old store is an initial segment of the new one, so every existing record keeps
its position and its id. -/
theorem postAll_ids_unique (quotes : List Quote) (reqs : List NewQuoteRequest)
    (hnodup : (quotes.map Quote.id).Nodup)
    (hbound : ∀ q ∈ quotes, q.id ≤ (quotes.length : Int)) :
    ((postAll quotes reqs).map Quote.id).Nodup ∧
    (∀ q ∈ postAll quotes reqs, q.id ≤ ((postAll quotes reqs).length : Int)) ∧
    (∃ added, postAll quotes reqs = quotes ++ added) ∧
    (∀ i, i < quotes.length → (postAll quotes reqs)[i]? = quotes[i]?) := by
  obtain ⟨h1, h2⟩ := postAll_idsWithinSize reqs quotes ⟨hnodup, hbound⟩
  obtain ⟨added, hadded⟩ := postAll_extends reqs quotes
  refine ⟨h1, h2, ⟨added, hadded⟩, ?_⟩
  intro i hi
  rw [hadded, List.getElem?_append_left hi]

theorem postAll_ids_unique_witness :
    ((postAll sampleStore
        [⟨some "t", some "a", none⟩, ⟨none, some "a", none⟩, ⟨some "u", some "b", some "x"⟩]).map
      Quote.id).Nodup ∧
    (∀ q ∈ postAll sampleStore
        [⟨some "t", some "a", none⟩, ⟨none, some "a", none⟩, ⟨some "u", some "b", some "x"⟩],
      q.id ≤ ((postAll sampleStore
        [⟨some "t", some "a", none⟩, ⟨none, some "a", none⟩,
          ⟨some "u", some "b", some "x"⟩]).length : Int)) ∧
    (∃ added, postAll sampleStore
        [⟨some "t", some "a", none⟩, ⟨none, some "a", none⟩, ⟨some "u", some "b", some "x"⟩] =
      sampleStore ++ added) ∧
    (∀ i, i < sampleStore.length →
      (postAll sampleStore
        [⟨some "t", some "a", none⟩, ⟨none, some "a", none⟩,
          ⟨some "u", some "b", some "x"⟩])[i]? = sampleStore[i]?) :=
  postAll_ids_unique sampleStore
    [⟨some "t", some "a", none⟩, ⟨none, some "a", none⟩, ⟨some "u", some "b", some "x"⟩]
    (by decide) (by decide)

/-! ## Lookup by id -/

theorem getQuoteById_of_find (quotes : List Quote) (idParam : String) (id : Int)
    (hparse : parseInt idParam = JsNumber.finite id) :
    getQuoteById quotes idParam =
      match quotes.find? (fun q => decide (q.id = id)) with
      | some quote => { status := 200, body := .quote quote }
      | none => { status := 404, body := .notFound "Quote not found" (.finite id) } := by
  simp only [getQuoteById, hparse, JsNumber.finite.injEq]

/-- C5, as stated, fails: for the integer id 9007199254740993 no record of the store has
that id, yet ById answers 200, with the record of id 9007199254740992, the double that
`parseInt` reads from the path. -/
theorem getQuoteById_rounded_id :
    "9007199254740993" = toString (9007199254740993 : Int) ∧
    (∀ q ∈ roundedIdStore, q.id ≠ 9007199254740993) ∧
    parseInt "9007199254740993" = .finite 9007199254740992 ∧
    getQuoteById roundedIdStore "9007199254740993" =
      { status := 200,
        body := .quote ⟨9007199254740992, "Know thyself", "Socrates", "wisdom"⟩ } ∧
    (getQuoteById roundedIdStore "9007199254740993").status ≠ 404 := by
  decide

/-- C5, amended: for every integer id that the handler reads exactly from the path, as it
reads the decimal numeral of every id of magnitude below `2 ^ 53`, ById answers 200 with
the first record in store order whose id equals the input when the store has such a
record, and answers 404 with body `{error: "Quote not found", id}` exactly when no record
of the store has that id. -/
theorem getQuoteById_spec (quotes : List Quote) (idParam : String) (id : Int)
    (hparse : parseInt idParam = JsNumber.finite id) :
    ((∃ q ∈ quotes, q.id = id) →
      ∃ before q after, quotes = before ++ q :: after ∧ q.id = id ∧
        (∀ p ∈ before, p.id ≠ id) ∧
        getQuoteById quotes idParam = { status := 200, body := .quote q }) ∧
    (getQuoteById quotes idParam =
        { status := 404, body := .notFound "Quote not found" (.finite id) } ↔
      ∀ q ∈ quotes, q.id ≠ id) ∧
    ((getQuoteById quotes idParam).status = 404 ↔ ∀ q ∈ quotes, q.id ≠ id) ∧
    (∀ i : Int, i.natAbs < 2 ^ 53 → parseInt (toString i) = JsNumber.finite i) := by
  rw [getQuoteById_of_find quotes idParam id hparse]
  cases hfind : quotes.find? (fun q => decide (q.id = id)) with
  | none =>
    have hnone : ∀ q ∈ quotes, q.id ≠ id := by
      intro q hq
      have := List.find?_eq_none.mp hfind q hq
      simpa using this
    refine ⟨?_, ?_, ?_, parseInt_int_toString⟩
    · rintro ⟨q, hq, hid⟩
      exact absurd hid (hnone q hq)
    · simpa using hnone
    · simpa using hnone
  | some q =>
    obtain ⟨hq, before, after, hsplit, hbefore⟩ := List.find?_eq_some.mp hfind
    have hqid : q.id = id := by simpa using hq
    have hmem : q ∈ quotes := by rw [hsplit]; simp
    have hex : ¬ ∀ p ∈ quotes, p.id ≠ id := fun h => h q hmem hqid
    refine ⟨?_, ?_, ?_, parseInt_int_toString⟩
    · intro _
      refine ⟨before, q, after, hsplit, hqid, ?_, rfl⟩
      intro p hp
      simpa using hbefore p hp
    · simp [hex]
    · simp [hex]

theorem getQuoteById_spec_witness :
    ((∃ q ∈ sampleStore, q.id = 2) →
      ∃ before q after, sampleStore = before ++ q :: after ∧ q.id = 2 ∧
        (∀ p ∈ before, p.id ≠ 2) ∧
        getQuoteById sampleStore "2" = { status := 200, body := .quote q }) ∧
    (getQuoteById sampleStore "2" =
        { status := 404, body := .notFound "Quote not found" (.finite 2) } ↔
      ∀ q ∈ sampleStore, q.id ≠ 2) ∧
    ((getQuoteById sampleStore "2").status = 404 ↔ ∀ q ∈ sampleStore, q.id ≠ 2) ∧
    (∀ i : Int, i.natAbs < 2 ^ 53 → parseInt (toString i) = JsNumber.finite i) :=
  getQuoteById_spec sampleStore "2" 2 (by decide)

/-- A path value in which `parseInt` finds no finite number (`NaN` or an infinity) is
answered 404, with that value as the id. -/
theorem getQuoteById_not_finite (quotes : List Quote) (idParam : String)
    (hparse : ∀ id : Int, parseInt idParam ≠ JsNumber.finite id) :
    getQuoteById quotes idParam =
      { status := 404, body := .notFound "Quote not found" (parseInt idParam) } := by
  have hnone : quotes.find? (fun q => decide (JsNumber.finite q.id = parseInt idParam)) =
      none := by
    rw [List.find?_eq_none]
    intro q _
    have := hparse q.id
    simpa [eq_comm] using this
  simp only [getQuoteById, hnone]

/-- C4, as stated, fails: on `gapStore` an accepted Add returns a record with id 2, and
ById on that id answers with the older record that already carried the id 2. -/
theorem getQuoteById_postQuote_not_inverse :
    ∃ r : Quote, ∃ store : List Quote,
      postQuote gapStore ⟨some "t", some "a", none⟩ =
        ({ status := 201, body := .created r }, store) ∧
      parseInt "2" = JsNumber.finite r.id ∧
      getQuoteById store "2" ≠ { status := 200, body := .quote r } :=
  ⟨⟨2, "t", "a", "general"⟩, gapStore ++ [⟨2, "t", "a", "general"⟩],
    by decide, by decide, by decide⟩

/-- C4, amended: when no record of the store carries the id `size + 1`, every accepted Add
returning a record r is followed by a ById on `r.id` that answers 200 with exactly r; this
holds for every path value that `parseInt` reads as that id, among them its decimal
rendering (read exactly for an id below `2 ^ 53`, as every id of an array is). -/
theorem getQuoteById_postQuote (quotes : List Quote) (req : NewQuoteRequest) (r : Quote)
    (store : List Quote)
    (hfresh : ∀ q ∈ quotes, q.id ≠ (quotes.length : Int) + 1)
    (hadd : postQuote quotes req = ({ status := 201, body := .created r }, store)) :
    r.id = ((quotes.length + 1 : Nat) : Int) ∧
    (quotes.length + 1 < 2 ^ 53 →
      getQuoteById store (toString (quotes.length + 1)) =
        { status := 200, body := .quote r }) ∧
    ∀ idParam, parseInt idParam = JsNumber.finite r.id →
      getQuoteById store idParam = { status := 200, body := .quote r } := by
  have hshape : r.id = (quotes.length : Int) + 1 ∧ store = quotes ++ [r] := by
    unfold postQuote at hadd
    split at hadd
    · simp at hadd
    · simp only [Prod.mk.injEq, Response.mk.injEq, AddBody.created.injEq, true_and] at hadd
      obtain ⟨h1, h2⟩ := hadd
      subst h1
      exact ⟨rfl, h2.symm⟩
  obtain ⟨hid, hstore⟩ := hshape
  have hid2 : r.id = ((quotes.length + 1 : Nat) : Int) := by rw [hid]; push_cast; rfl
  have hgen : ∀ idParam, parseInt idParam = JsNumber.finite r.id →
      getQuoteById store idParam = { status := 200, body := .quote r } := by
    intro idParam hparam
    rw [getQuoteById_of_find store idParam r.id hparam, hstore, List.find?_append]
    have hnone : quotes.find? (fun q => decide (q.id = r.id)) = none := by
      rw [List.find?_eq_none]
      intro q hq
      have := hfresh q hq
      simpa [hid] using this
    simp [hnone]
  refine ⟨hid2, fun hsmall => hgen _ ?_, hgen⟩
  rw [parseInt_repr _ hsmall, hid2]

theorem getQuoteById_postQuote_witness :
    getQuoteById (sampleStore ++ [⟨4, "t", "a", "general"⟩]) "4" =
      { status := 200, body := .quote ⟨4, "t", "a", "general"⟩ } :=
  (getQuoteById_postQuote sampleStore ⟨some "t", some "a", none⟩ ⟨4, "t", "a", "general"⟩
    (sampleStore ++ [⟨4, "t", "a", "general"⟩]) (by decide) (by decide)).2.1 (by decide)

/-! ## Lookup by category -/

/-- C6: ByCategory is case-insensitive in its argument: two category strings that differ
only in letter case, that is, with the same lower-case form, get identical responses
(status, echoed category, count and quotes in the same order); and only such strings do,
since the response echoes the lower-case form. This holds whatever the case tables of
`toLowerCase` are. -/
theorem getQuotesByCategory_ignores_case (toLowerCase : String → String)
    (quotes : List Quote) (a b : String) :
    (toLowerCase a = toLowerCase b →
      getQuotesByCategory toLowerCase quotes a = getQuotesByCategory toLowerCase quotes b) ∧
    (getQuotesByCategory toLowerCase quotes a = getQuotesByCategory toLowerCase quotes b →
      toLowerCase a = toLowerCase b) := by
  constructor
  · intro h
    simp only [getQuotesByCategory, h]
  · intro h
    unfold getQuotesByCategory at h
    simp only at h
    split_ifs at h with h1 h2 h2
    · simp only [Response.mk.injEq, ByCategoryBody.found.injEq, true_and] at h
      exact h.1
    · simp at h
    · simp at h
    · simp only [Response.mk.injEq, ByCategoryBody.notFound.injEq, true_and] at h
      exact h

theorem getQuotesByCategory_ignores_case_witness :
    getQuotesByCategory asciiToLowerCase sampleStore "motivation" =
      getQuotesByCategory asciiToLowerCase sampleStore "MOTIVATION" :=
  (getQuotesByCategory_ignores_case asciiToLowerCase sampleStore "motivation"
    "MOTIVATION").1 (by decide)

/-- C7: the quotes of ByCategory are exactly the records whose category equals the
argument ignoring letter case (same lower-case form), in store order, and count is their
number; the answer is 200 `{category, count, quotes}` when at least one record matches and
404 `{error: "No quotes found for this category", category}` exactly when none does, so a
200 response never carries an empty list. This holds whatever the case tables of
`toLowerCase` are. -/
theorem getQuotesByCategory_spec (toLowerCase : String → String) (quotes : List Quote)
    (c : String) :
    (getQuotesByCategory toLowerCase quotes c =
      if quotes.filter (fun q => decide (toLowerCase q.category = toLowerCase c)) = [] then
        { status := 404,
          body := .notFound "No quotes found for this category" (toLowerCase c) }
      else
        { status := 200,
          body := .found (toLowerCase c)
            (quotes.filter (fun q => decide (toLowerCase q.category = toLowerCase c))).length
            (quotes.filter (fun q => decide (toLowerCase q.category = toLowerCase c))) }) ∧
    ((getQuotesByCategory toLowerCase quotes c).status = 200 ↔
      ∃ q ∈ quotes, toLowerCase q.category = toLowerCase c) ∧
    ((getQuotesByCategory toLowerCase quotes c).status = 404 ↔
      ∀ q ∈ quotes, toLowerCase q.category ≠ toLowerCase c) ∧
    (∀ category count found,
      (getQuotesByCategory toLowerCase quotes c).body = .found category count found →
        (getQuotesByCategory toLowerCase quotes c).status = 200 ∧ found ≠ [] ∧
        count = found.length ∧ category = toLowerCase c ∧
        found = quotes.filter (fun q => decide (toLowerCase q.category = toLowerCase c)) ∧
        found.Sublist quotes ∧
        (∀ q, q ∈ found ↔ q ∈ quotes ∧ toLowerCase q.category = toLowerCase c)) ∧
    (∀ error category,
      (getQuotesByCategory toLowerCase quotes c).body = .notFound error category →
        (getQuotesByCategory toLowerCase quotes c).status = 404) := by
  have hresp : getQuotesByCategory toLowerCase quotes c =
      if quotes.filter (fun q => decide (toLowerCase q.category = toLowerCase c)) = [] then
        { status := 404,
          body := .notFound "No quotes found for this category" (toLowerCase c) }
      else
        { status := 200,
          body := .found (toLowerCase c)
            (quotes.filter (fun q => decide (toLowerCase q.category = toLowerCase c))).length
            (quotes.filter (fun q => decide (toLowerCase q.category = toLowerCase c))) } := by
    simp only [getQuotesByCategory]
    by_cases hnil : quotes.filter (fun q => decide (toLowerCase q.category = toLowerCase c)) = []
    · simp [hnil]
    · have hpos : (quotes.filter
          (fun q => decide (toLowerCase q.category = toLowerCase c))).length > 0 :=
        List.length_pos.mpr hnil
      rw [if_pos hpos, if_neg hnil]
  refine ⟨hresp, ?_⟩
  rw [hresp]
  by_cases hnil : quotes.filter (fun q => decide (toLowerCase q.category = toLowerCase c)) = []
  · rw [if_pos hnil]
    have hall : ∀ q ∈ quotes, toLowerCase q.category ≠ toLowerCase c := by
      intro q hq
      have := List.filter_eq_nil_iff.mp hnil q hq
      simpa using this
    refine ⟨?_, ?_, ?_, ?_⟩
    · constructor
      · intro h; simp at h
      · rintro ⟨q, hq, hqc⟩
        exact absurd hqc (hall q hq)
    · constructor
      · intro _; exact hall
      · intro _; rfl
    · intro category count found h
      simp at h
    · intro _ _ _
      rfl
  · rw [if_neg hnil]
    obtain ⟨q, hq⟩ := List.exists_mem_of_ne_nil _ hnil
    obtain ⟨hq1, hq2⟩ := List.mem_filter.mp hq
    have hq3 : toLowerCase q.category = toLowerCase c := by simpa using hq2
    refine ⟨?_, ?_, ?_, ?_⟩
    · constructor
      · intro _; exact ⟨q, hq1, hq3⟩
      · intro _; rfl
    · constructor
      · intro h; simp at h
      · intro h
        exact absurd hq3 (h q hq1)
    · intro category count found h
      simp only [ByCategoryBody.found.injEq] at h
      obtain ⟨h1, h2, h3⟩ := h
      subst h3
      refine ⟨rfl, hnil, h2.symm, h1.symm, rfl, List.filter_sublist _, ?_⟩
      intro p
      rw [List.mem_filter]
      simp
    · intro error category h
      simp at h

theorem getQuotesByCategory_spec_witness :
    getQuotesByCategory asciiToLowerCase sampleStore "MOTIVATION" =
      { status := 200,
        body := .found "motivation" 2
          [⟨1, "Stay hungry", "Jobs", "Motivation"⟩, ⟨3, "Just do it", "Nike", "motivation"⟩] } :=
  (getQuotesByCategory_spec asciiToLowerCase sampleStore "MOTIVATION").1.trans (by decide)

/-! ## Distinct categories -/

theorem newSet_append_singleton (vs : List String) (v : String) :
    newSet (vs ++ [v]) = setAdd (newSet vs) v := by
  simp [newSet, List.foldl_append]

theorem mem_newSet (vs : List String) : ∀ v, v ∈ newSet vs ↔ v ∈ vs := by
  induction vs using List.reverseRecOn with
  | nil => intro v; simp [newSet]
  | append_singleton vs w ih =>
    intro v
    rw [newSet_append_singleton, setAdd]
    by_cases hw : w ∈ newSet vs
    · rw [if_pos hw, ih, List.mem_append, List.mem_singleton]
      constructor
      · exact Or.inl
      · rintro (h | h)
        · exact h
        · rw [h]; exact (ih w).mp hw
    · rw [if_neg hw, List.mem_append, List.mem_append, ih]

theorem nodup_newSet (vs : List String) : (newSet vs).Nodup := by
  induction vs using List.reverseRecOn with
  | nil => simp [newSet]
  | append_singleton vs w ih =>
    rw [newSet_append_singleton, setAdd]
    by_cases hw : w ∈ newSet vs
    · rw [if_pos hw]; exact ih
    · rw [if_neg hw]
      exact List.Nodup.append ih (List.nodup_singleton w) (by simpa using hw)

theorem pairwise_newSet (vs : List String) :
    (newSet vs).Pairwise (fun a b => vs.indexOf a < vs.indexOf b) := by
  induction vs using List.reverseRecOn with
  | nil => simp [newSet]
  | append_singleton vs w ih =>
    have hold : (newSet vs).Pairwise
        (fun a b => (vs ++ [w]).indexOf a < (vs ++ [w]).indexOf b) := by
      refine List.Pairwise.imp_of_mem ?_ ih
      intro a b ha hb hab
      rw [List.indexOf_append_of_mem ((mem_newSet vs a).mp ha),
        List.indexOf_append_of_mem ((mem_newSet vs b).mp hb)]
      exact hab
    rw [newSet_append_singleton, setAdd]
    by_cases hw : w ∈ newSet vs
    · rw [if_pos hw]; exact hold
    · rw [if_neg hw, List.pairwise_append]
      refine ⟨hold, List.pairwise_singleton _ _, ?_⟩
      intro a ha b hb
      rw [List.mem_singleton] at hb
      subst hb
      have hwvs : b ∉ vs := fun h => hw ((mem_newSet vs b).mpr h)
      have havs : a ∈ vs := (mem_newSet vs a).mp ha
      rw [List.indexOf_append_of_mem havs, List.indexOf_append_of_not_mem hwvs]
      have := List.indexOf_lt_length.mpr havs
      omega

/-- C8: Categories answers 200 with a list that has no duplicate entry, contains exactly
the category values occurring in the store, is ordered by the position of the first
occurrence of each category in the store, and whose length is the reported count. -/
theorem getCategories_spec (quotes : List Quote) :
    (getCategories quotes).status = 200 ∧
    (getCategories quotes).body.categories.Nodup ∧
    (∀ c, c ∈ (getCategories quotes).body.categories ↔ ∃ q ∈ quotes, q.category = c) ∧
    (getCategories quotes).body.categories.Pairwise
      (fun a b => (quotes.map Quote.category).indexOf a <
        (quotes.map Quote.category).indexOf b) ∧
    (getCategories quotes).body.count = (getCategories quotes).body.categories.length := by
  refine ⟨rfl, nodup_newSet _, ?_, pairwise_newSet _, rfl⟩
  intro c
  show c ∈ newSet (quotes.map fun q => q.category) ↔ _
  rw [mem_newSet, List.mem_map]

/-! ## Pagination -/

theorem relativeIndex_natCast (len n : Nat) :
    relativeIndex len (.finite (n : Int)) = min n len := by
  have h : ¬ ((n : Int) < 0) := by omega
  simp [relativeIndex, h]

theorem slice_natCast {α : Type} (xs : List α) (s n : Nat) :
    slice xs (.finite (s : Int)) (.finite ((s + n : Nat) : Int)) = (xs.drop s).take n := by
  simp only [slice, relativeIndex_natCast]
  by_cases hs : xs.length ≤ s
  · rw [Nat.min_eq_right hs, List.drop_eq_nil_of_le (Nat.le_refl _),
      List.drop_eq_nil_of_le hs]
    simp
  · have hlt : s < xs.length := Nat.lt_of_not_le hs
    rw [Nat.min_eq_left (Nat.le_of_lt hlt), List.take_eq_take, List.length_drop]
    omega

theorem numberOr_pos (v : Int) (d : JsNumber) (hv : 0 < v) :
    numberOr (.finite v) d = .finite v := by
  have : v ≠ 0 := by omega
  simp [numberOr, this]

theorem getQuotes_quotes_of_pos (quotes : List Quote) (pageQuery limitQuery : Option String)
    (page limit : Nat) (hpage : 0 < page) (hlimit : 0 < limit)
    (hp : parseIntParam pageQuery = .finite (page : Int))
    (hl : parseIntParam limitQuery = .finite (limit : Int)) :
    (getQuotes quotes pageQuery limitQuery).body.quotes =
      (quotes.drop ((page - 1) * limit)).take limit := by
  have h1 : numberOr (parseIntParam pageQuery) (.finite 1) = .finite (page : Int) := by
    rw [hp]; exact numberOr_pos _ _ (by omega)
  have h2 : numberOr (parseIntParam limitQuery) (.finite 11) = .finite (limit : Int) := by
    rw [hl]; exact numberOr_pos _ _ (by omega)
  have hstart : ((page : Int) - 1) * (limit : Int) = (((page - 1) * limit : Nat) : Int) := by
    push_cast [Nat.cast_sub hpage]
    ring
  have hend : (page : Int) * (limit : Int) = (((page - 1) * limit + limit : Nat) : Int) := by
    push_cast [Nat.cast_sub hpage]
    ring
  show slice quotes
    (((numberOr (parseIntParam pageQuery) (.finite 1)).sub (.finite 1)).mul
      (numberOr (parseIntParam limitQuery) (.finite 11)))
    ((numberOr (parseIntParam pageQuery) (.finite 1)).mul
      (numberOr (parseIntParam limitQuery) (.finite 11))) = _
  rw [h1, h2]
  show slice quotes (.finite (((page : Int) - 1) * (limit : Int)))
    (.finite ((page : Int) * (limit : Int))) = _
  rw [hstart, hend, slice_natCast]

theorem getQuotes_quotes_of_infinite_page (quotes : List Quote)
    (pageQuery limitQuery : Option String) (limit : Nat) (hlimit : 0 < limit)
    (hp : parseIntParam pageQuery = .infinity false)
    (hl : parseIntParam limitQuery = .finite (limit : Int)) :
    (getQuotes quotes pageQuery limitQuery).body.quotes = [] := by
  have h2 : numberOr (parseIntParam limitQuery) (.finite 11) = .finite (limit : Int) := by
    rw [hl]; exact numberOr_pos _ _ (by omega)
  have hne : ¬ ((limit : Int) = 0) := by omega
  have hnneg : ¬ ((limit : Int) < 0) := by omega
  show slice quotes
    (((numberOr (parseIntParam pageQuery) (.finite 1)).sub (.finite 1)).mul
      (numberOr (parseIntParam limitQuery) (.finite 11)))
    ((numberOr (parseIntParam pageQuery) (.finite 1)).mul
      (numberOr (parseIntParam limitQuery) (.finite 11))) = _
  rw [h2, hp]
  simp [numberOr, JsNumber.sub, JsNumber.mul, hne, hnneg, slice, relativeIndex]

/-- The slice of List for a page read as `P` and a limit read as `X`, both positive. -/
theorem getQuotes_quotes_eq_slice (quotes : List Quote) (pageQuery limitQuery : Option String)
    (P X : JsNumber) (hp : parseIntParam pageQuery = P) (hl : parseIntParam limitQuery = X)
    (hP : numberOr P (.finite 1) = P) (hX : numberOr X (.finite 11) = X) :
    (getQuotes quotes pageQuery limitQuery).body.quotes =
      slice quotes ((P.sub (.finite 1)).mul X) (P.mul X) := by
  show slice quotes
    (((numberOr (parseIntParam pageQuery) (.finite 1)).sub (.finite 1)).mul
      (numberOr (parseIntParam limitQuery) (.finite 11)))
    ((numberOr (parseIntParam pageQuery) (.finite 1)).mul
      (numberOr (parseIntParam limitQuery) (.finite 11))) = _
  rw [hp, hl, hP, hX]

theorem slice_from_length {α : Type} (xs : List α) (startIndex endIndex : JsNumber)
    (h : relativeIndex xs.length startIndex = xs.length) :
    slice xs startIndex endIndex = [] := by
  simp only [slice, h, List.drop_length]
  exact List.take_nil

/-- List for decimal page and limit of any size, on a store that an array can hold. -/
theorem pageQuotes_decimal (quotes : List Quote) (page limit : Nat) (hpage : 0 < page)
    (hlimit : 0 < limit) (hlength : quotes.length < 2 ^ 53) :
    pageQuotes quotes limit page = (quotes.drop ((page - 1) * limit)).take limit := by
  have hinf : numberOr (.infinity false) (.finite 1) = .infinity false := rfl
  have hinf2 : numberOr (.infinity false) (.finite 11) = .infinity false := rfl
  have hfin : ∀ (v : Nat) (d : JsNumber), 0 < v →
      numberOr (.finite (v : Int)) d = .finite (v : Int) :=
    fun v d hv => numberOr_pos _ _ (by omega)
  rcases parseInt_toString_cases limit with ⟨hl53, hl⟩ | ⟨hl53, hl⟩ | ⟨hl53, L, hL, hl⟩
  · -- the limit is read exactly
    rcases parseInt_toString_cases page with ⟨hp53, hp⟩ | ⟨hp53, hp⟩ | ⟨hp53, P, hP, hp⟩
    · exact getQuotes_quotes_of_pos quotes _ _ page limit hpage hlimit hp hl
    · have hexp : quotes.length ≤ (page - 1) * limit := by
        have : (2 ^ 53 - 1) * 1 ≤ (page - 1) * limit := Nat.mul_le_mul (by omega) hlimit
        omega
      rw [List.drop_eq_nil_of_le hexp, List.take_nil]
      exact getQuotes_quotes_of_infinite_page quotes _ _ limit hlimit hp hl
    · have hexp : quotes.length ≤ (page - 1) * limit := by
        have : (2 ^ 53 - 1) * 1 ≤ (page - 1) * limit := Nat.mul_le_mul (by omega) hlimit
        omega
      rw [List.drop_eq_nil_of_le hexp, List.take_nil]
      have hq := getQuotes_quotes_of_pos quotes (some (toString page)) (some (toString limit))
        P limit (by omega) hlimit hp hl
      show (getQuotes quotes (some (toString page)) (some (toString limit))).body.quotes = []
      rw [hq, List.drop_eq_nil_of_le, List.take_nil]
      have : (2 ^ 53 - 1) * 1 ≤ (P - 1) * limit := Nat.mul_le_mul (by omega) hlimit
      omega
  · -- the limit is read as Infinity
    have hq : ∀ Pn : JsNumber, parseIntParam (some (toString page)) = Pn →
        numberOr Pn (.finite 1) = Pn →
        pageQuotes quotes limit page =
          slice quotes ((Pn.sub (.finite 1)).mul (.infinity false))
            (Pn.mul (.infinity false)) :=
      fun Pn h1 h2 => getQuotes_quotes_eq_slice quotes _ _ Pn (.infinity false) h1 hl h2 hinf2
    by_cases hone : page = 1
    · subst hone
      rw [hq (.finite 1) (by decide) rfl]
      simp [JsNumber.sub, JsNumber.mul, slice, relativeIndex]
      omega
    · have hexp : quotes.length ≤ (page - 1) * limit := by
        have : 1 * 2 ^ 53 ≤ (page - 1) * limit := Nat.mul_le_mul (by omega) hl53
        omega
      rw [List.drop_eq_nil_of_le hexp, List.take_nil]
      rcases parseInt_toString_cases page with ⟨hp53, hp⟩ | ⟨hp53, hp⟩ | ⟨hp53, P, hP, hp⟩
      · rw [hq _ hp (hfin page _ hpage)]
        apply slice_from_length
        have hne : ¬ ((page : Int) - 1 = 0) := by omega
        have hnn : ¬ ((page : Int) - 1 < 0) := by omega
        simp [JsNumber.sub, JsNumber.mul, relativeIndex, hne, hnn]
      · rw [hq _ hp hinf]
        apply slice_from_length
        simp [JsNumber.sub, JsNumber.mul, relativeIndex]
      · rw [hq _ hp (hfin P _ (by omega))]
        apply slice_from_length
        have hne : ¬ ((P : Int) - 1 = 0) := by omega
        have hnn : ¬ ((P : Int) - 1 < 0) := by omega
        simp [JsNumber.sub, JsNumber.mul, relativeIndex, hne, hnn]
  · -- the limit is read as a finite number of at least 2 ^ 53
    have hL0 : 0 < L := by omega
    by_cases hone : page = 1
    · subst hone
      have hq := getQuotes_quotes_of_pos quotes (some (toString 1)) (some (toString limit))
        1 L (by decide) hL0 (by decide) hl
      show (getQuotes quotes (some (toString 1)) (some (toString limit))).body.quotes = _
      rw [hq]
      simp only [Nat.sub_self, Nat.zero_mul, List.drop_zero]
      rw [List.take_of_length_le (by omega), List.take_of_length_le (by omega)]
    · have hexp : quotes.length ≤ (page - 1) * limit := by
        have : 1 * 2 ^ 53 ≤ (page - 1) * limit := Nat.mul_le_mul (by omega) hl53
        omega
      rw [List.drop_eq_nil_of_le hexp, List.take_nil]
      rcases parseInt_toString_cases page with ⟨hp53, hp⟩ | ⟨hp53, hp⟩ | ⟨hp53, P, hP, hp⟩
      · have hq := getQuotes_quotes_of_pos quotes (some (toString page))
          (some (toString limit)) page L hpage hL0 hp hl
        show (getQuotes quotes (some (toString page)) (some (toString limit))).body.quotes = []
        rw [hq, List.drop_eq_nil_of_le, List.take_nil]
        have : 1 * 2 ^ 53 ≤ (page - 1) * L := Nat.mul_le_mul (by omega) hL
        omega
      · exact getQuotes_quotes_of_infinite_page quotes _ _ L hL0 hp hl
      · have hq := getQuotes_quotes_of_pos quotes (some (toString page))
          (some (toString limit)) P L (by omega) hL0 hp hl
        show (getQuotes quotes (some (toString page)) (some (toString limit))).body.quotes = []
        rw [hq, List.drop_eq_nil_of_le, List.take_nil]
        have : 1 * 2 ^ 53 ≤ (P - 1) * L := Nat.mul_le_mul (by omega) hL
        omega

/-- C9: for positive integers page and limit, List answers 200 with exactly the records
of the store at the zero-based positions from `(page-1)*limit` up to, excluding,
`(page-1)*limit + limit`, clipped to the store, in store order; so it returns at most
limit records, and the empty sequence when `(page-1)*limit` is at or beyond the size.
This holds for every page and limit that `parseInt` reads exactly, and on a store that an
array can hold for the decimal numerals of all positive integers, also those that are
rounded or read as `Infinity`. -/
theorem getQuotes_page (quotes : List Quote) (pageQuery limitQuery : Option String)
    (page limit : Nat) (hpage : 0 < page) (hlimit : 0 < limit)
    (hp : parseIntParam pageQuery = .finite (page : Int))
    (hl : parseIntParam limitQuery = .finite (limit : Int)) :
    (getQuotes quotes pageQuery limitQuery).status = 200 ∧
    (getQuotes quotes pageQuery limitQuery).body.quotes =
      (quotes.drop ((page - 1) * limit)).take limit ∧
    (∀ i, (getQuotes quotes pageQuery limitQuery).body.quotes[i]? =
      if i < limit then quotes[(page - 1) * limit + i]? else none) ∧
    (getQuotes quotes pageQuery limitQuery).body.quotes.length =
      min limit (quotes.length - (page - 1) * limit) ∧
    (getQuotes quotes pageQuery limitQuery).body.quotes.length ≤ limit ∧
    (quotes.length ≤ (page - 1) * limit →
      (getQuotes quotes pageQuery limitQuery).body.quotes = []) ∧
    (quotes.length < 2 ^ 53 → ∀ p l : Nat, 0 < p → 0 < l →
      pageQuotes quotes l p = (quotes.drop ((p - 1) * l)).take l) := by
  have hq := getQuotes_quotes_of_pos quotes pageQuery limitQuery page limit hpage hlimit hp hl
  refine ⟨rfl, hq, ?_, ?_, ?_, ?_,
    fun hlength p l h1 h2 => pageQuotes_decimal quotes p l h1 h2 hlength⟩
  · intro i
    rw [hq, List.getElem?_take, List.getElem?_drop]
  · rw [hq, List.length_take, List.length_drop]
  · rw [hq, List.length_take]
    exact Nat.min_le_left _ _
  · intro hbeyond
    rw [hq, List.drop_eq_nil_of_le hbeyond]
    simp

theorem getQuotes_page_witness :
    (getQuotes sampleStore (some "2") (some "2")).status = 200 ∧
    (getQuotes sampleStore (some "2") (some "2")).body.quotes =
      (sampleStore.drop ((2 - 1) * 2)).take 2 ∧
    (∀ i, (getQuotes sampleStore (some "2") (some "2")).body.quotes[i]? =
      if i < 2 then sampleStore[(2 - 1) * 2 + i]? else none) ∧
    (getQuotes sampleStore (some "2") (some "2")).body.quotes.length =
      min 2 (sampleStore.length - (2 - 1) * 2) ∧
    (getQuotes sampleStore (some "2") (some "2")).body.quotes.length ≤ 2 ∧
    (sampleStore.length ≤ (2 - 1) * 2 →
      (getQuotes sampleStore (some "2") (some "2")).body.quotes = []) ∧
    (sampleStore.length < 2 ^ 53 → ∀ p l : Nat, 0 < p → 0 < l →
      pageQuotes sampleStore l p = (sampleStore.drop ((p - 1) * l)).take l) :=
  getQuotes_page sampleStore (some "2") (some "2") 2 2 (by decide) (by decide)
    (by decide) (by decide)

/-- C10, as stated, fails: on the request `?page=-3&limit=5abc` neither value is a
positive integer, yet List keeps page -3 and limit 5 instead of the defaults 1 and 11. -/
theorem getQuotes_no_fallback :
    (getQuotes sampleStore (some "-3") (some "5abc")).body.page = .finite (-3) ∧
    (getQuotes sampleStore (some "-3") (some "5abc")).body.page ≠ .finite 1 ∧
    (getQuotes sampleStore (some "-3") (some "5abc")).body.limit = .finite 5 ∧
    (getQuotes sampleStore (some "-3") (some "5abc")).body.limit ≠ .finite 11 := by
  decide

/-- C10, amended: List never fails (it always answers 200); a page or limit query value
that is absent, or in which `parseInt` finds no number (as in every text without a decimal
digit), or in which it finds zero, falls back to the default, page = 1 and limit = 11
respectively; and the page and limit echoed in the response are the values used for the
slice and the page count. -/
theorem getQuotes_defaults (quotes : List Quote) (pageQuery limitQuery : Option String) :
    (getQuotes quotes pageQuery limitQuery).status = 200 ∧
    parseIntParam none = .nan ∧
    (∀ text : String, (∀ c ∈ text.toList, ¬ IsDecimal c) →
      parseIntParam (some text) = .nan) ∧
    (parseIntParam pageQuery = .nan ∨ parseIntParam pageQuery = .finite 0 →
      (getQuotes quotes pageQuery limitQuery).body.page = .finite 1) ∧
    (parseIntParam limitQuery = .nan ∨ parseIntParam limitQuery = .finite 0 →
      (getQuotes quotes pageQuery limitQuery).body.limit = .finite 11) ∧
    (getQuotes quotes pageQuery limitQuery).body.quotes =
      slice quotes
        (((getQuotes quotes pageQuery limitQuery).body.page.sub (.finite 1)).mul
          (getQuotes quotes pageQuery limitQuery).body.limit)
        ((getQuotes quotes pageQuery limitQuery).body.page.mul
          (getQuotes quotes pageQuery limitQuery).body.limit) ∧
    (getQuotes quotes pageQuery limitQuery).body.totalPages =
      pageCount quotes.length (getQuotes quotes pageQuery limitQuery).body.limit ∧
    (∀ limit : Int, (getQuotes quotes pageQuery limitQuery).body.limit = .finite limit →
      (getQuotes quotes pageQuery limitQuery).body.totalPages =
        .finite (Int.ceil ((quotes.length : ℚ) / (limit : ℚ)))) := by
  refine ⟨rfl, by decide, parseInt_of_no_digit, ?_, ?_, rfl, rfl, ?_⟩
  · rintro (h | h) <;> simp [getQuotes, numberOr, h]
  · rintro (h | h) <;> simp [getQuotes, numberOr, h]
  · intro limit hlimit
    have hne : limit ≠ 0 := by
      intro h0
      subst h0
      have hl : numberOr (parseIntParam limitQuery) (.finite 11) = .finite 0 := hlimit
      unfold numberOr at hl
      split at hl
      · simp at hl
      · split_ifs at hl with h1
        · simp at hl
        · simp only [JsNumber.finite.injEq] at hl
          exact h1 hl
      · simp at hl
    show pageCount quotes.length (getQuotes quotes pageQuery limitQuery).body.limit = _
    rw [hlimit]
    simp only [pageCount, if_neg hne]

theorem getQuotes_defaults_witness :
    (getQuotes sampleStore (some "abc") (some "0")).body.page = .finite 1 ∧
    (getQuotes sampleStore (some "abc") (some "0")).body.limit = .finite 11 ∧
    (getQuotes sampleStore none none).body.page = .finite 1 ∧
    (getQuotes sampleStore none none).body.limit = .finite 11 :=
  ⟨(getQuotes_defaults sampleStore (some "abc") (some "0")).2.2.2.1 (Or.inl (by decide)),
    (getQuotes_defaults sampleStore (some "abc") (some "0")).2.2.2.2.1 (Or.inr (by decide)),
    (getQuotes_defaults sampleStore none none).2.2.2.1 (Or.inl (by decide)),
    (getQuotes_defaults sampleStore none none).2.2.2.2.1 (Or.inl (by decide))⟩

/-! ## Page count -/

theorem ceil_div_le_iff (total : Nat) (limit k : Int) (hlimit : 0 < limit) :
    Int.ceil ((total : ℚ) / (limit : ℚ)) ≤ k ↔ (total : Int) ≤ k * limit := by
  have hq : (0 : ℚ) < (limit : ℚ) := by exact_mod_cast hlimit
  rw [Int.ceil_le, div_le_iff₀ hq]
  constructor
  · intro h; exact_mod_cast h
  · intro h; exact_mod_cast h

theorem pageCount_finite (total : Nat) (limit : Int) (hlimit : 0 < limit) :
    pageCount total (.finite limit) = .finite (Int.ceil ((total : ℚ) / (limit : ℚ))) := by
  have hne : limit ≠ 0 := by omega
  simp only [pageCount, if_neg hne]

/-- C11, as stated, fails: the limit `10 ^ 309` is above zero, and on the three-record
store List reports totalPages 0 for it, where `ceil(3 / 10 ^ 309)` is 1 and no k below 1
has `k * limit >= 3`; `parseInt` reads this limit as `Infinity`. -/
theorem getQuotes_totalPages_overflow :
    hugeNumeral = toString (10 ^ 309 : Nat) ∧
    (getQuotes sampleStore none (some hugeNumeral)).body.limit = .infinity false ∧
    (getQuotes sampleStore none (some hugeNumeral)).body.total = 3 ∧
    (getQuotes sampleStore none (some hugeNumeral)).body.totalPages = .finite 0 ∧
    ¬ ((3 : Int) ≤ 0 * (10 : Int) ^ 309) := by
  decide!

/-- C11, amended: for every limit above zero that List uses as a finite number (`parseInt`
reads a limit of `2 ^ 1024` or more as `Infinity`), the totalPages List reports is
`ceil(total / limit)`, the least integer k with `k * limit >= total`, and the reported
total is the size of the store. -/
theorem getQuotes_totalPages (quotes : List Quote) (pageQuery limitQuery : Option String)
    (limit : Int)
    (hfinite : (getQuotes quotes pageQuery limitQuery).body.limit = .finite limit)
    (hlimit : 0 < limit) :
    (getQuotes quotes pageQuery limitQuery).body.total = quotes.length ∧
    (getQuotes quotes pageQuery limitQuery).body.totalPages =
      .finite (Int.ceil ((quotes.length : ℚ) / (limit : ℚ))) ∧
    (quotes.length : Int) ≤ Int.ceil ((quotes.length : ℚ) / (limit : ℚ)) * limit ∧
    (∀ k : Int, (quotes.length : Int) ≤ k * limit →
      Int.ceil ((quotes.length : ℚ) / (limit : ℚ)) ≤ k) ∧
    Int.ceil ((quotes.length : ℚ) / (limit : ℚ)) = ((quotes.length : Int) + limit - 1) / limit := by
  have hleast := ceil_div_le_iff quotes.length limit
  have htp : (getQuotes quotes pageQuery limitQuery).body.totalPages =
      .finite (Int.ceil ((quotes.length : ℚ) / (limit : ℚ))) := by
    show pageCount quotes.length (getQuotes quotes pageQuery limitQuery).body.limit = _
    rw [hfinite, pageCount_finite _ _ hlimit]
  refine ⟨rfl, htp, ?_, ?_, ?_⟩
  · exact (hleast _ hlimit).mp (le_refl _)
  · intro k hk
    exact (hleast k hlimit).mpr hk
  · apply le_antisymm
    · rw [hleast _ hlimit]
      have := Int.lt_ediv_add_one_mul_self ((quotes.length : Int) + limit - 1) hlimit
      linarith
    · have hup := (hleast _ hlimit).mp (le_refl _)
      have hlt : ((quotes.length : Int) + limit - 1) / limit <
          Int.ceil ((quotes.length : ℚ) / (limit : ℚ)) + 1 := by
        apply Int.ediv_lt_of_lt_mul hlimit
        linarith
      omega

theorem getQuotes_totalPages_witness :
    (getQuotes sampleStore none (some "2")).body.total = sampleStore.length ∧
    (getQuotes sampleStore none (some "2")).body.totalPages =
      .finite (Int.ceil ((sampleStore.length : ℚ) / ((2 : Int) : ℚ))) ∧
    Int.ceil ((sampleStore.length : ℚ) / ((2 : Int) : ℚ)) =
      ((sampleStore.length : Int) + 2 - 1) / 2 :=
  ⟨(getQuotes_totalPages sampleStore none (some "2") 2 (by decide) (by decide)).1,
    (getQuotes_totalPages sampleStore none (some "2") 2 (by decide) (by decide)).2.1,
    (getQuotes_totalPages sampleStore none (some "2") 2 (by decide) (by decide)).2.2.2.2⟩

/-! ## Pages tile the store -/

theorem pageQuotes_eq (quotes : List Quote) (limit page : Nat) (hlimit : 0 < limit)
    (hfinite : roundSignificand limit < 2 ^ 1024) (hpage : 0 < page) (hsmall : page < 2 ^ 53) :
    pageQuotes quotes limit page =
      (quotes.drop ((page - 1) * roundSignificand limit)).take (roundSignificand limit) :=
  getQuotes_quotes_of_pos quotes (some (toString page)) (some (toString limit)) page
    (roundSignificand limit) hpage (roundSignificand_pos limit hlimit)
    (parseInt_repr page hsmall) (parseInt_toString_finite limit hfinite)

theorem pageQuotes_beyond (quotes : List Quote) (limit page : Nat) (hlimit : 0 < limit)
    (hfinite : roundSignificand limit < 2 ^ 1024) (hlength : quotes.length < 2 ^ 53)
    (hpage : 2 ^ 53 ≤ page) : pageQuotes quotes limit page = [] := by
  have hL := roundSignificand_pos limit hlimit
  have hP := roundSignificand_ge page hpage
  by_cases hover : overflowThreshold ≤ roundSignificand page
  · apply getQuotes_quotes_of_infinite_page quotes _ _ (roundSignificand limit) hL
    · show parseInt (toString page) = _
      rw [parseInt_toString, ofInt_natCast, if_pos hover]
    · exact parseInt_toString_finite limit hfinite
  · have hq := getQuotes_quotes_of_pos quotes (some (toString page)) (some (toString limit))
      (roundSignificand page) (roundSignificand limit) (by omega) hL
      (by
        show parseInt (toString page) = _
        rw [parseInt_toString, ofInt_natCast, if_neg hover])
      (parseInt_toString_finite limit hfinite)
    show (getQuotes quotes (some (toString page)) (some (toString limit))).body.quotes = []
    rw [hq, List.drop_eq_nil_of_le]
    · exact List.take_nil
    · have h1 : 2 ^ 53 - 1 ≤ roundSignificand page - 1 := by omega
      have h2 : (2 ^ 53 - 1) * 1 ≤ (roundSignificand page - 1) * roundSignificand limit :=
        Nat.mul_le_mul h1 hL
      omega

theorem reportedTotalPages_eq (quotes : List Quote) (limit : Nat) (hlimit : 0 < limit)
    (hfinite : roundSignificand limit < 2 ^ 1024) :
    reportedTotalPages quotes limit =
      .finite (Int.ceil ((quotes.length : ℚ) / ((roundSignificand limit : Int) : ℚ))) := by
  have hL : (0 : Int) < (roundSignificand limit : Int) := by
    exact_mod_cast roundSignificand_pos limit hlimit
  have hl : numberOr (parseIntParam (some (toString limit))) (.finite 11) =
      .finite (roundSignificand limit : Int) := by
    show numberOr (parseInt (toString limit)) (.finite 11) = _
    rw [parseInt_toString_finite limit hfinite]
    exact numberOr_pos _ _ hL
  show pageCount quotes.length (numberOr (parseIntParam (some (toString limit))) (.finite 11)) = _
  rw [hl, pageCount_finite _ _ hL]

theorem flatten_chunks {α : Type} (xs : List α) (limit : Nat) (k : Nat) :
    ((List.range k).map (fun i => (xs.drop (i * limit)).take limit)).flatten =
      xs.take (k * limit) := by
  induction k with
  | zero => simp
  | succ k ih =>
    rw [List.range_succ, List.map_append, List.flatten_append, ih, Nat.succ_mul,
      List.take_add]
    simp

theorem pageCount_bounds (total limit : Nat) (hlimit : 0 < limit) :
    ∃ T : Nat, Int.ceil ((total : ℚ) / ((limit : Int) : ℚ)) = (T : Int) ∧
      total ≤ T * limit ∧ (∀ k : Nat, total ≤ k * limit → T ≤ k) := by
  have hl : (0 : Int) < (limit : Int) := by exact_mod_cast hlimit
  have hup := (ceil_div_le_iff total (limit : Int) _ hl).mp (le_refl _)
  have hnonneg : 0 ≤ Int.ceil ((total : ℚ) / ((limit : Int) : ℚ)) := by
    by_contra hneg
    have hlt : Int.ceil ((total : ℚ) / ((limit : Int) : ℚ)) * (limit : Int) < 0 :=
      mul_neg_of_neg_of_pos (by omega) hl
    omega
  obtain ⟨T, hT⟩ := Int.eq_ofNat_of_zero_le hnonneg
  refine ⟨T, hT, ?_, ?_⟩
  · rw [hT] at hup
    exact_mod_cast hup
  · intro k hk
    have := (ceil_div_le_iff total (limit : Int) (k : Int) hl).mpr (by exact_mod_cast hk)
    rw [hT] at this
    exact_mod_cast this

/-- C13, as stated, fails: for the positive integer limit `10 ^ 309`, which `parseInt`
reads as `Infinity`, List reports totalPages 0 on the three-record store, so the pages
1 to totalPages are none and their concatenation is empty, while page 1, a page after
totalPages, holds the whole store. -/
theorem pages_do_not_tile :
    reportedTotalPages sampleStore (10 ^ 309) = .finite 0 ∧
    ((List.range 0).map (fun i => pageQuotes sampleStore (10 ^ 309) (i + 1))).flatten ≠
      sampleStore ∧
    pageQuotes sampleStore (10 ^ 309) 1 = sampleStore ∧
    pageQuotes sampleStore (10 ^ 309) 1 ≠ [] := by
  decide!

/-- C13, amended: for a store that an array can hold (fewer than `2 ^ 53` records) and a
positive integer limit that List reads as a finite number (below `2 ^ 53` it is read
exactly, and in general as the nearest double `roundSignificand limit`, the page size in
use), the pages 1, 2, ..., totalPages that List returns, concatenated in that order, are
exactly the store in store order; every position of the store lies on exactly one of
these pages, every page from 1 to totalPages is non-empty, and every page after
totalPages is empty. -/
theorem pages_tile (quotes : List Quote) (limit : Nat) (hlimit : 0 < limit)
    (hfinite : roundSignificand limit < 2 ^ 1024) (hlength : quotes.length < 2 ^ 53) :
    ∃ totalPages : Nat,
      reportedTotalPages quotes limit = .finite (totalPages : Int) ∧
      ((List.range totalPages).map
        (fun i => pageQuotes quotes limit (i + 1))).flatten = quotes ∧
      (∀ page : Nat, 1 ≤ page → page ≤ totalPages → pageQuotes quotes limit page ≠ []) ∧
      (∀ page : Nat, totalPages < page → pageQuotes quotes limit page = []) ∧
      (∀ i, i < quotes.length →
        ∃! page : Nat, 1 ≤ page ∧ page ≤ totalPages ∧
          ∃ j, j < roundSignificand limit ∧ (page - 1) * roundSignificand limit + j = i ∧
            (pageQuotes quotes limit page)[j]? = quotes[i]?) ∧
      (limit < 2 ^ 53 → roundSignificand limit = limit) := by
  have hL : 0 < roundSignificand limit := roundSignificand_pos limit hlimit
  obtain ⟨T, hT, hup, hleast⟩ := pageCount_bounds quotes.length (roundSignificand limit) hL
  have hTlen : T ≤ quotes.length := by
    apply hleast
    calc quotes.length = quotes.length * 1 := (Nat.mul_one _).symm
      _ ≤ quotes.length * roundSignificand limit := Nat.mul_le_mul_left _ hL
  have hpageq : ∀ page : Nat, 1 ≤ page → page < 2 ^ 53 →
      pageQuotes quotes limit page =
        (quotes.drop ((page - 1) * roundSignificand limit)).take (roundSignificand limit) :=
    fun page h1 h2 => pageQuotes_eq quotes limit page hlimit hfinite h1 h2
  have hnonempty : ∀ page : Nat, 1 ≤ page → page ≤ T →
      (page - 1) * roundSignificand limit < quotes.length := by
    intro page h1 h2
    by_contra hge
    have := hleast (page - 1) (Nat.le_of_not_lt hge)
    omega
  refine ⟨T, ?_, ?_, ?_, ?_, ?_, roundSignificand_of_lt limit⟩
  · rw [reportedTotalPages_eq quotes limit hlimit hfinite, hT]
  · have hmap : (List.range T).map (fun i => pageQuotes quotes limit (i + 1)) =
        (List.range T).map
          (fun i => (quotes.drop (i * roundSignificand limit)).take (roundSignificand limit)) := by
      apply List.map_congr_left
      intro i hi
      have hiT : i < T := List.mem_range.mp hi
      rw [hpageq (i + 1) (Nat.succ_pos i) (by omega), Nat.add_sub_cancel]
    rw [hmap, flatten_chunks, List.take_of_length_le hup]
  · intro page h1 h2
    have hlt := hnonempty page h1 h2
    rw [hpageq page h1 (by omega)]
    intro hnil
    have hlen := congrArg List.length hnil
    rw [List.length_take, List.length_drop, List.length_nil] at hlen
    omega
  · intro page hgt
    by_cases hbig : 2 ^ 53 ≤ page
    · exact pageQuotes_beyond quotes limit page hlimit hfinite hlength hbig
    · rw [hpageq page (by omega) (by omega)]
      have hle : T * roundSignificand limit ≤ (page - 1) * roundSignificand limit :=
        Nat.mul_le_mul_right _ (by omega)
      rw [List.drop_eq_nil_of_le (Nat.le_trans hup hle)]
      exact List.take_nil
  · intro i hi
    have hdiv : i / roundSignificand limit * roundSignificand limit +
        i % roundSignificand limit = i := by
      rw [Nat.mul_comm]; exact Nat.div_add_mod i _
    have hmod : i % roundSignificand limit < roundSignificand limit := Nat.mod_lt i hL
    have hpT : i / roundSignificand limit + 1 ≤ T := by
      by_contra hgt
      have hle : T ≤ i / roundSignificand limit := by omega
      have := Nat.mul_le_mul_right (roundSignificand limit) hle
      omega
    refine ⟨i / roundSignificand limit + 1,
      ⟨Nat.succ_pos _, hpT, i % roundSignificand limit, hmod, ?_, ?_⟩, ?_⟩
    · rw [Nat.add_sub_cancel]; exact hdiv
    · rw [hpageq (i / roundSignificand limit + 1) (Nat.succ_pos _) (by omega),
        Nat.add_sub_cancel, List.getElem?_take, if_pos hmod, List.getElem?_drop, hdiv]
    · rintro page ⟨h1, _, j, hj, hsum, _⟩
      have hq : (page - 1) = i / roundSignificand limit := by
        rw [← hsum, Nat.mul_comm, Nat.mul_add_div hL, Nat.div_eq_of_lt hj]
        rfl
      omega

theorem pages_tile_witness :
    ∃ totalPages : Nat,
      reportedTotalPages sampleStore 2 = .finite (totalPages : Int) ∧
      ((List.range totalPages).map
        (fun i => pageQuotes sampleStore 2 (i + 1))).flatten = sampleStore ∧
      (∀ page : Nat, 1 ≤ page → page ≤ totalPages → pageQuotes sampleStore 2 page ≠ []) ∧
      (∀ page : Nat, totalPages < page → pageQuotes sampleStore 2 page = []) ∧
      (∀ i, i < sampleStore.length →
        ∃! page : Nat, 1 ≤ page ∧ page ≤ totalPages ∧
          ∃ j, j < roundSignificand 2 ∧ (page - 1) * roundSignificand 2 + j = i ∧
            (pageQuotes sampleStore 2 page)[j]? = sampleStore[i]?) ∧
      (2 < 2 ^ 53 → roundSignificand 2 = 2) :=
  pages_tile sampleStore 2 (by decide) (by decide!) (by decide)

/-! ## Random quote -/

theorem randomIndex_lt (quotes : List Quote) (random : Nat) (hne : quotes ≠ [])
    (hlt : random < 2 ^ 1074) (hdouble : roundSignificand random = random) :
    randomIndex quotes random < quotes.length := by
  have hpos : 0 < quotes.length := List.length_pos.mpr hne
  unfold randomIndex
  rw [Nat.div_lt_iff_lt_mul (Nat.two_pow_pos 1074)]
  exact roundSignificand_mul_lt random quotes.length (double_below_one random hlt hdouble) hpos

/-- The draw `0.6666666666666666`, the double `6004799503160661 / 2 ^ 53`, on three
records: the exact product is just below 2, the double product is 2, and the handler
answers with the third record. -/
theorem getRandomQuote_rounds_up :
    roundSignificand (6004799503160661 * 2 ^ 1021) = 6004799503160661 * 2 ^ 1021 ∧
    6004799503160661 * 2 ^ 1021 * 3 < 2 * 2 ^ 1074 ∧
    randomIndex sampleStore (6004799503160661 * 2 ^ 1021) = 2 ∧
    getRandomQuote sampleStore (6004799503160661 * 2 ^ 1021) =
      { status := 200, body := some ⟨3, "Just do it", "Nike", "motivation"⟩ } := by
  decide!

/-- C12: for a non-empty store and a random draw r with `0 <= r < 1` (a double, given by
its numerator over `2 ^ 1074`), the index `floor(r * total)`, computed as the handler does
with a rounded double product, lies in `[0, total)`, so Random answers with a record that
is present in the store, never with an undefined element; on a store of size 1 it answers
with that one record. -/
theorem getRandomQuote_mem (quotes : List Quote) (random : Nat) (hne : quotes ≠ [])
    (hlt : random < 2 ^ 1074) (hdouble : roundSignificand random = random) :
    0 ≤ randomIndex quotes random ∧ randomIndex quotes random < quotes.length ∧
    (∃ q, q ∈ quotes ∧ quotes[randomIndex quotes random]? = some q ∧
      getRandomQuote quotes random = { status := 200, body := some q }) ∧
    (∀ q, quotes = [q] → getRandomQuote quotes random = { status := 200, body := some q }) := by
  have hidx := randomIndex_lt quotes random hne hlt hdouble
  have hget : quotes[randomIndex quotes random]? = some (quotes[randomIndex quotes random]) :=
    List.getElem?_eq_getElem hidx
  have hresp : getRandomQuote quotes random =
      { status := 200, body := some (quotes[randomIndex quotes random]) } := by
    simp only [getRandomQuote, hget]
  refine ⟨Nat.zero_le _, hidx, ⟨_, List.getElem_mem hidx, hget, hresp⟩, ?_⟩
  intro q hq
  rw [hresp]
  subst hq
  have hzero : randomIndex [q] random = 0 := by
    simp only [List.length_singleton] at hidx
    omega
  simp [hzero]

theorem getRandomQuote_mem_witness :
    0 ≤ randomIndex sampleStore (6004799503160661 * 2 ^ 1021) ∧
    randomIndex sampleStore (6004799503160661 * 2 ^ 1021) < sampleStore.length ∧
    (∃ q, q ∈ sampleStore ∧
      sampleStore[randomIndex sampleStore (6004799503160661 * 2 ^ 1021)]? = some q ∧
      getRandomQuote sampleStore (6004799503160661 * 2 ^ 1021) =
        { status := 200, body := some q }) ∧
    (∀ q, sampleStore = [q] →
      getRandomQuote sampleStore (6004799503160661 * 2 ^ 1021) =
        { status := 200, body := some q }) :=
  getRandomQuote_mem sampleStore (6004799503160661 * 2 ^ 1021) (by decide) (by decide!)
    (by decide!)

end QuoteApp
